import Mathlib

/-!
# PRISM hybrid engine: the Power method (`PH_Power.cc`)

A shallow embedding of `prism/src/hybrid/PH_Power.cc`, and of the error message of
`prism/src/mtbdd/PrismMTBDD.cc`, and theorems about them.

Modelling conventions.

* A `double` is an exact rational (`ℚ`): rounding, infinities and NaN are outside the model.
  The one division of the code, in the relative convergence test, can have a zero divisor
  on such values: there the test is given the verdict that the division of doubles leads to
  (see `relative_test`).
* A C array (`double *`, `int *`, `unsigned int *`) is a total map from integer indices,
  so an access is never out of bounds.  `int` values are unbounded integers and
  `unsigned int` words are natural numbers: on a well-formed structure every index the
  code computes is a state index below `n`, itself an `int`, so nothing wraps around.
* The file-level globals `soln`, `soln2` are the record `Buffers`, threaded through every
  function; the remaining globals (`zero`, `num_levels`, `compact_sm`, `sm_dist`,
  `sm_dist_shift`, `sm_dist_mask`) and the memory holding the nodes form `Globals`.
* A pointer to a node is an address (`Ptr`); `hdd == zero` is equality of addresses.
-/

namespace PrismHybrid

/-- A C array of doubles, indexed by integers. -/
abbrev Vec := Int → ℚ

/-- The two file-level solution vectors `soln` and `soln2`. -/
structure Buffers where
  soln : Vec
  soln2 : Vec

/-- Modelled from the spec: the struct `RMSparseMatrix` declared in `sparse.h` (absent);
the fields are those `power_rm` reads.  `row_counts` and `row_starts` are the two views
(`unsigned char *` and `int *`) the code takes of the one memory region `rmsm->row_counts`. -/
structure RMSparseMatrix where
  n : Int
  nnz : Int
  non_zeros : Int → ℚ
  row_counts : Int → Nat
  row_starts : Int → Int
  use_counts : Bool
  cols : Int → Nat

/-- Modelled from the spec: the struct `CMSRSparseMatrix` declared in `sparse.h` (absent);
the fields are those `power_cmsr` reads. -/
structure CMSRSparseMatrix where
  n : Int
  nnz : Int
  row_counts : Int → Nat
  row_starts : Int → Int
  use_counts : Bool
  cols : Int → Nat

/-- The statement `soln2[r] += soln[c] * v`. -/
def accumulate (r c : Int) (v : ℚ) (s : Buffers) : Buffers :=
  { s with soln2 := Function.update s.soln2 r (s.soln2 r + s.soln c * v) }

/-- The inner loop of `power_rm`, `for (j2 = l2; j2 < h2; j2++)`, with `k` iterations
left to run from `j2`. -/
def power_rm_entries (rmsm : RMSparseMatrix) (row_offset col_offset i2 : Int) :
    Nat → Int → Buffers → Buffers
  | 0, _, s => s
  | k + 1, j2, s =>
    power_rm_entries rmsm row_offset col_offset i2 k (j2 + 1)
      (accumulate (row_offset + i2) (col_offset + (rmsm.cols j2 : Int)) (rmsm.non_zeros j2) s)

/-- The outer loop of `power_rm`, `for (i2 = 0; i2 < sm_n; i2++)`, with `k` iterations
left to run from `i2`; `l2` and `h2` are the loop-carried locals. -/
def power_rm_rows (rmsm : RMSparseMatrix) (row_offset col_offset : Int) :
    Nat → Int → Int → Int → Buffers → Buffers
  | 0, _, _, _, s => s
  | k + 1, i2, _, h2, s =>
    let l2new := if !rmsm.use_counts then rmsm.row_starts i2 else h2
    let h2new := if !rmsm.use_counts then rmsm.row_starts (i2 + 1)
      else h2 + (rmsm.row_counts i2 : Int)
    power_rm_rows rmsm row_offset col_offset k (i2 + 1) l2new h2new
      (power_rm_entries rmsm row_offset col_offset i2 (h2new - l2new).toNat l2new s)

/-- The function `power_rm`. -/
def power_rm (rmsm : RMSparseMatrix) (row_offset col_offset : Int) (s : Buffers) : Buffers :=
  power_rm_rows rmsm row_offset col_offset rmsm.n.toNat 0 rmsm.nnz 0 s

/-- The inner loop of `power_cmsr`, with `k` iterations left to run from `j2`. -/
def power_cmsr_entries (sm_dist : Int → ℚ) (sm_dist_shift sm_dist_mask : Nat)
    (cmsrsm : CMSRSparseMatrix) (row_offset col_offset i2 : Int) :
    Nat → Int → Buffers → Buffers
  | 0, _, s => s
  | k + 1, j2, s =>
    power_cmsr_entries sm_dist sm_dist_shift sm_dist_mask cmsrsm row_offset col_offset i2 k
      (j2 + 1)
      (accumulate (row_offset + i2)
        (col_offset + ((cmsrsm.cols j2 >>> sm_dist_shift : Nat) : Int))
        (sm_dist ((cmsrsm.cols j2 &&& sm_dist_mask : Nat) : Int)) s)

/-- The outer loop of `power_cmsr`, with `k` iterations left to run from `i2`. -/
def power_cmsr_rows (sm_dist : Int → ℚ) (sm_dist_shift sm_dist_mask : Nat)
    (cmsrsm : CMSRSparseMatrix) (row_offset col_offset : Int) :
    Nat → Int → Int → Int → Buffers → Buffers
  | 0, _, _, _, s => s
  | k + 1, i2, _, h2, s =>
    let l2new := if !cmsrsm.use_counts then cmsrsm.row_starts i2 else h2
    let h2new := if !cmsrsm.use_counts then cmsrsm.row_starts (i2 + 1)
      else h2 + (cmsrsm.row_counts i2 : Int)
    power_cmsr_rows sm_dist sm_dist_shift sm_dist_mask cmsrsm row_offset col_offset k (i2 + 1)
      l2new h2new
      (power_cmsr_entries sm_dist sm_dist_shift sm_dist_mask cmsrsm row_offset col_offset i2
        (h2new - l2new).toNat l2new s)

/-- The function `power_cmsr`. -/
def power_cmsr (sm_dist : Int → ℚ) (sm_dist_shift sm_dist_mask : Nat)
    (cmsrsm : CMSRSparseMatrix) (row_offset col_offset : Int) (s : Buffers) : Buffers :=
  power_cmsr_rows sm_dist sm_dist_shift sm_dist_mask cmsrsm row_offset col_offset
    cmsrsm.n.toNat 0 cmsrsm.nnz 0 s

/-- An address in the memory that holds the nodes of the hybrid MTBDD. -/
abbrev Ptr := Nat

/-- What the `void *sm` field of a node may point to. -/
inductive SparseMatrix
  | rm (rmsm : RMSparseMatrix)
  | cmsr (cmsrsm : CMSRSparseMatrix)

/-- Modelled from the spec: the struct `HDDNode` declared in `hybrid.h` (absent); the fields
are those `power_rec` reads.  The members `type.kids.e`, `type.kids.t` and `type.val` of the
union `type` are laid side by side, so a node read the wrong way yields some value rather
than an error; `sm = none` is the null pointer. -/
structure HDDNode where
  kids_e : Ptr
  kids_t : Ptr
  val : ℚ
  off : Int
  sm : Option SparseMatrix

/-- The memory holding the nodes, and the file-level globals other than `soln`, `soln2`. -/
structure Globals where
  heap : Ptr → HDDNode
  zero : Ptr
  num_levels : Int
  compact_sm : Bool
  sm_dist : Int → ℚ
  sm_dist_shift : Nat
  sm_dist_mask : Nat

/-- The function `power_rec`.  The first argument bounds the depth of the recursion, and
the result is `none` when that depth is exceeded, or when the block a node points to is
not of the kind `compact_sm` makes the code cast it to. -/
def power_rec (g : Globals) :
    Nat → Ptr → Int → Int → Int → Bool → Buffers → Option Buffers
  | 0, _, _, _, _, _, _ => none
  | fuel + 1, hdd, level, row_offset, col_offset, transpose, s =>
    if hdd = g.zero then some s
    else
      match (g.heap hdd).sm with
      | some sm =>
        if !g.compact_sm then
          match sm with
          | .rm rmsm => some (power_rm rmsm row_offset col_offset s)
          | .cmsr _ => none
        else
          match sm with
          | .cmsr cmsrsm =>
            some (power_cmsr g.sm_dist g.sm_dist_shift g.sm_dist_mask cmsrsm
              row_offset col_offset s)
          | .rm _ => none
      | none =>
        if level = g.num_levels then
          some (accumulate row_offset col_offset (g.heap hdd).val s)
        else
          let e := (g.heap hdd).kids_e
          let after_e : Option Buffers :=
            if e ≠ g.zero then
              if !transpose then
                (power_rec g fuel (g.heap e).kids_e (level + 1) row_offset col_offset
                  transpose s).bind
                (power_rec g fuel (g.heap e).kids_t (level + 1) row_offset
                  (col_offset + (g.heap e).off) transpose)
              else
                (power_rec g fuel (g.heap e).kids_e (level + 1) row_offset col_offset
                  transpose s).bind
                (power_rec g fuel (g.heap e).kids_t (level + 1)
                  (row_offset + (g.heap e).off) col_offset transpose)
            else some s
          after_e.bind fun s1 =>
            let t := (g.heap hdd).kids_t
            if t ≠ g.zero then
              if !transpose then
                (power_rec g fuel (g.heap t).kids_e (level + 1)
                  (row_offset + (g.heap hdd).off) col_offset transpose s1).bind
                (power_rec g fuel (g.heap t).kids_t (level + 1)
                  (row_offset + (g.heap hdd).off) (col_offset + (g.heap t).off) transpose)
              else
                (power_rec g fuel (g.heap t).kids_e (level + 1) row_offset
                  (col_offset + (g.heap hdd).off) transpose s1).bind
                (power_rec g fuel (g.heap t).kids_t (level + 1)
                  (row_offset + (g.heap t).off) (col_offset + (g.heap hdd).off) transpose)
            else some s1

/-- Modelled from the spec: the constant `TERM_CRIT_ABSOLUTE` of a header that is absent;
only that it differs from `TERM_CRIT_RELATIVE` matters. -/
def TERM_CRIT_ABSOLUTE : Int := 1

/-- Modelled from the spec: the constant `TERM_CRIT_RELATIVE` of a header that is absent. -/
def TERM_CRIT_RELATIVE : Int := 2

/-- Everything `Java_hybrid_PrismHybrid_PH_1Power` has at hand when it reaches
`// start iterations`: the globals `term_crit`, `term_crit_param`, `max_iters` set through
`PrismMTBDD.cc`, the number of states `n`, the matrix (`hdd` and what `power_rec` reads),
the right-hand side in its three forms (`b_null` is `b == NULL`), the `transpose` flag and
the depth of recursion available to `power_rec`. -/
structure PowerArgs where
  g : Globals
  hdd : Ptr
  n : Int
  b_null : Bool
  compact_b : Bool
  b_vec : Int → ℚ
  b_dist_dist : Int → ℚ
  b_dist_ptrs : Int → Nat
  transpose : Bool
  term_crit : Int
  term_crit_param : ℚ
  max_iters : Int
  fuel : Nat

/-- A loop `for (i = 0; i < n; i++) { soln2[i] = rhs(i); }`, with `k` iterations left to run
from `i`. -/
def init_soln2 (rhs : Int → ℚ) : Nat → Int → Buffers → Buffers
  | 0, _, s => s
  | k + 1, i, s => init_soln2 rhs k (i + 1) { s with soln2 := Function.update s.soln2 i (rhs i) }

/-- The block `// initialise vector`. -/
def initialise_vector (a : PowerArgs) (s : Buffers) : Buffers :=
  if a.b_null then init_soln2 (fun _ => 0) a.n.toNat 0 s
  else if !a.compact_b then init_soln2 (fun i => a.b_vec i) a.n.toNat 0 s
  else init_soln2 (fun i => a.b_dist_dist (a.b_dist_ptrs i : Int)) a.n.toNat 0 s

/-- The block `// matrix multiply`: seed `soln2`, then run `power_rec` from the root. -/
def matrix_multiply (a : PowerArgs) (s : Buffers) : Option Buffers :=
  power_rec a.g a.fuel a.hdd 0 0 0 a.transpose (initialise_vector a s)

/-- The loop of `case TERM_CRIT_ABSOLUTE`, entered with `done = true`; the result is the
final value of `done`. -/
def check_absolute (term_crit_param : ℚ) (s : Buffers) : Nat → Int → Bool
  | 0, _ => true
  | k + 1, i =>
    if |s.soln2 i - s.soln i| > term_crit_param then false
    else check_absolute term_crit_param s k (i + 1)

/-- The condition `fabs(soln2[i] - soln[i])/soln2[i] > term_crit_param` of
`case TERM_CRIT_RELATIVE`.  When `soln2[i]` is zero (taken to be `+0.0`) the division of
doubles gives `+inf`, which is above every tolerance, if `soln2[i] - soln[i]` is not zero,
and a NaN, for which no comparison holds, if it is zero. -/
def relative_test (term_crit_param : ℚ) (s : Buffers) (i : Int) : Bool :=
  if s.soln2 i = 0 then decide (s.soln2 i - s.soln i ≠ 0)
  else decide (|s.soln2 i - s.soln i| / s.soln2 i > term_crit_param)

/-- The loop of `case TERM_CRIT_RELATIVE`, entered with `done = true`; the result is the
final value of `done`. -/
def check_relative (term_crit_param : ℚ) (s : Buffers) : Nat → Int → Bool
  | 0, _ => true
  | k + 1, i =>
    if relative_test term_crit_param s i then false
    else check_relative term_crit_param s k (i + 1)

/-- The `switch (term_crit)` of `// check convergence`: the new value of `done`. -/
def check_convergence (a : PowerArgs) (s : Buffers) (done : Bool) : Bool :=
  if a.term_crit = TERM_CRIT_ABSOLUTE then check_absolute a.term_crit_param s a.n.toNat 0
  else if a.term_crit = TERM_CRIT_RELATIVE then check_relative a.term_crit_param s a.n.toNat 0
  else done

/-- The block `// prepare for next iteration`: exchange the two pointers. -/
def swap (s : Buffers) : Buffers :=
  { soln := s.soln2, soln2 := s.soln }

/-- The locals and globals the `while` loop changes. -/
structure LoopState where
  iters : Int
  done : Bool
  bufs : Buffers

/-- The loop `while (!done && iters < max_iters)`. -/
def while_loop (a : PowerArgs) (st : LoopState) : Option LoopState :=
  if _h : st.done = false ∧ st.iters < a.max_iters then
    match matrix_multiply a st.bufs with
    | none => none
    | some s =>
      while_loop a
        { iters := st.iters + 1, done := check_convergence a s st.done, bufs := swap s }
  else some st
termination_by (a.max_iters - st.iters).toNat
decreasing_by
  simp_wf
  omega

/-- The text `PH_SetErrorMessage` is called with. -/
def error_message (iters : Int) : String :=
  "Iterative method did not converge within " ++ toString iters ++
    " iterations.\nConsider using a different numerical method or increase the maximum number of iterations"

/-- What a call leaves behind: the value returned (`none` is the `0` of the failure path,
otherwise the vector `soln` points to) and the error message, when one was set. -/
structure Outcome where
  result : Option Vec
  message : Option String

/-- The function `Java_hybrid_PrismHybrid_PH_1Power` from `// start iterations` on; `init`
is the vector `soln` is created from and `scratch` the content of the fresh `soln2`. -/
def Java_hybrid_PrismHybrid_PH_1Power (a : PowerArgs) (init scratch : Vec) : Option Outcome :=
  match while_loop a { iters := 0, done := false, bufs := { soln := init, soln2 := scratch } } with
  | none => none
  | some st =>
    if !st.done then some { result := none, message := some (error_message st.iters) }
    else some { result := some st.bufs.soln, message := none }

/-! ## Definitions used to state the properties -/

/-- One update `soln2[row] += soln[col] * value`. -/
structure Update where
  row : Int
  col : Int
  value : ℚ

/-- Apply a list of updates, first to last. -/
def apply_updates (us : List Update) (s : Buffers) : Buffers :=
  us.foldl (fun acc u => accumulate u.row u.col u.value acc) s

/-- The matrix a list of updates stands for: entry `(i, c)` is the sum of the values of
the updates at row `i` and column `c`. -/
def matrix_of (us : List Update) (i c : Int) : ℚ :=
  ((us.filter (fun u => decide (u.row = i ∧ u.col = c))).map Update.value).sum

/-- The number of entries in the rows before row `i`, for a block that stores per-row
counts. -/
def count_before (row_counts : Int → Nat) : Nat → Int
  | 0 => 0
  | i + 1 => count_before row_counts i + (row_counts (i : Int) : Int)

/-- Start of the entry range `[l, h)` that row `i` of a block owns. -/
def row_lo (use_counts : Bool) (row_starts : Int → Int) (row_counts : Int → Nat)
    (i : Nat) : Int :=
  if use_counts then count_before row_counts i else row_starts (i : Int)

/-- End of the entry range `[l, h)` that row `i` of a block owns. -/
def row_hi (use_counts : Bool) (row_starts : Int → Int) (row_counts : Int → Nat)
    (i : Nat) : Int :=
  if use_counts then count_before row_counts (i + 1) else row_starts ((i : Int) + 1)

/-- The integers `l, l + 1, ..., h - 1`. -/
def index_range (l h : Int) : List Int :=
  (List.range (h - l).toNat).map fun (k : Nat) => l + (k : Int)

/-- The entries of a plain block placed at `(row_offset, col_offset)`, row by row. -/
def rm_updates (rmsm : RMSparseMatrix) (row_offset col_offset : Int) : List Update :=
  (List.range rmsm.n.toNat).flatMap fun (i : Nat) =>
    (index_range (row_lo rmsm.use_counts rmsm.row_starts rmsm.row_counts i)
        (row_hi rmsm.use_counts rmsm.row_starts rmsm.row_counts i)).map fun j =>
      { row := row_offset + (i : Int), col := col_offset + (rmsm.cols j : Int),
        value := rmsm.non_zeros j }

/-- The entries of a compressed block placed at `(row_offset, col_offset)`, row by row:
the column is the high part of the packed word, the value the table entry its low part
selects. -/
def cmsr_updates (sm_dist : Int → ℚ) (sm_dist_shift sm_dist_mask : Nat)
    (cmsrsm : CMSRSparseMatrix) (row_offset col_offset : Int) : List Update :=
  (List.range cmsrsm.n.toNat).flatMap fun (i : Nat) =>
    (index_range (row_lo cmsrsm.use_counts cmsrsm.row_starts cmsrsm.row_counts i)
        (row_hi cmsrsm.use_counts cmsrsm.row_starts cmsrsm.row_counts i)).map fun j =>
      { row := row_offset + (i : Int),
        col := col_offset + ((cmsrsm.cols j >>> sm_dist_shift : Nat) : Int),
        value := sm_dist ((cmsrsm.cols j &&& sm_dist_mask : Nat) : Int) }

/-- The entries of the block a node points to. -/
def block_updates (g : Globals) (sm : SparseMatrix) (row_offset col_offset : Int) :
    List Update :=
  match sm with
  | .rm rmsm => rm_updates rmsm row_offset col_offset
  | .cmsr cmsrsm =>
    cmsr_updates g.sm_dist g.sm_dist_shift g.sm_dist_mask cmsrsm row_offset col_offset

/-- The root-to-terminal-value paths of a diagram with `d` levels below `hdd`, each with
the row and column offsets accumulated along it (starting from `r`, `c`) and the terminal
value it ends in; the sparse blocks are not looked at.  A level is a row node over two
column nodes: the `then` branch of the row node adds the `off` of the row node to the row,
the `then` branch of a column node adds the `off` of that column node to the column, and
an `else` branch adds nothing. -/
def paths (g : Globals) : Nat → Ptr → Int → Int → List Update
  | 0, hdd, r, c =>
    if hdd = g.zero then [] else [{ row := r, col := c, value := (g.heap hdd).val }]
  | d + 1, hdd, r, c =>
    if hdd = g.zero then []
    else
      (if (g.heap hdd).kids_e = g.zero then []
        else paths g d (g.heap (g.heap hdd).kids_e).kids_e r c ++
          paths g d (g.heap (g.heap hdd).kids_e).kids_t r
            (c + (g.heap (g.heap hdd).kids_e).off)) ++
      (if (g.heap hdd).kids_t = g.zero then []
        else paths g d (g.heap (g.heap hdd).kids_t).kids_e (r + (g.heap hdd).off) c ++
          paths g d (g.heap (g.heap hdd).kids_t).kids_t (r + (g.heap hdd).off)
            (c + (g.heap (g.heap hdd).kids_t).off))

/-- The entries of the matrix a hybrid structure with `d` levels below `hdd` stands for,
blocks included, placed at `(r, c)`; with `transpose` the offsets of a level go to the other
axis. -/
def hybrid_updates (g : Globals) (transpose : Bool) : Nat → Ptr → Int → Int → List Update
  | 0, hdd, r, c =>
    if hdd = g.zero then []
    else
      match (g.heap hdd).sm with
      | some sm => block_updates g sm r c
      | none => [{ row := r, col := c, value := (g.heap hdd).val }]
  | d + 1, hdd, r, c =>
    if hdd = g.zero then []
    else
      match (g.heap hdd).sm with
      | some sm => block_updates g sm r c
      | none =>
        (if (g.heap hdd).kids_e = g.zero then []
          else if transpose then
            hybrid_updates g transpose d (g.heap (g.heap hdd).kids_e).kids_e r c ++
            hybrid_updates g transpose d (g.heap (g.heap hdd).kids_e).kids_t
              (r + (g.heap (g.heap hdd).kids_e).off) c
          else
            hybrid_updates g transpose d (g.heap (g.heap hdd).kids_e).kids_e r c ++
            hybrid_updates g transpose d (g.heap (g.heap hdd).kids_e).kids_t r
              (c + (g.heap (g.heap hdd).kids_e).off)) ++
        (if (g.heap hdd).kids_t = g.zero then []
          else if transpose then
            hybrid_updates g transpose d (g.heap (g.heap hdd).kids_t).kids_e r
              (c + (g.heap hdd).off) ++
            hybrid_updates g transpose d (g.heap (g.heap hdd).kids_t).kids_t
              (r + (g.heap (g.heap hdd).kids_t).off) (c + (g.heap hdd).off)
          else
            hybrid_updates g transpose d (g.heap (g.heap hdd).kids_t).kids_e
              (r + (g.heap hdd).off) c ++
            hybrid_updates g transpose d (g.heap (g.heap hdd).kids_t).kids_t
              (r + (g.heap hdd).off) (c + (g.heap (g.heap hdd).kids_t).off))

/-- Whether a block is of the kind the flag `compact_sm` announces. -/
def kind_matches (compact_sm : Bool) : SparseMatrix → Bool
  | .rm _ => !compact_sm
  | .cmsr _ => compact_sm

/-- Every block in memory is of the kind `compact_sm` announces. -/
def BlocksMatch (g : Globals) : Prop :=
  ∀ (p : Ptr) (sm : SparseMatrix), (g.heap p).sm = some sm → kind_matches g.compact_sm sm = true

/-- A solve is well set up: the blocks are of the announced kind, there are `num_levels`
levels, a number that is not negative, and `power_rec` may recurse deeper than that. -/
def WellSetUp (a : PowerArgs) : Prop :=
  BlocksMatch a.g ∧ 0 ≤ a.g.num_levels ∧ a.g.num_levels < (a.fuel : Int)

/-- The buffers after `k` rounds of multiply and swap, when the loop is started on `s` and
goes on whatever the convergence test says: `soln` holds the iterate `x_k`. -/
def bufs_after (a : PowerArgs) (s : Buffers) : Nat → Option Buffers
  | 0 => some s
  | k + 1 => (bufs_after a s k).bind fun b => (matrix_multiply a b).map swap

/-- The buffers right after the multiply of iteration `k + 1`, before the swap: `soln` holds
the iterate `x_k` and `soln2` the new iterate `x_(k+1)`. -/
def multiply_at (a : PowerArgs) (s : Buffers) (k : Nat) : Option Buffers :=
  (bufs_after a s k).bind (matrix_multiply a)

/-- The convergence test of iteration `k + 1`, that is on the pair `(x_k, x_(k+1))`, of the
iteration started on `s`. -/
def converges_at (a : PowerArgs) (s : Buffers) (k : Nat) : Bool :=
  match multiply_at a s k with
  | some m => check_convergence a m false
  | none => false

/-- One recursive call of `power_rec`: whether it is made through the `then` child `t`
(otherwise through the `else` child `e`) of the node at hand, and its arguments. -/
structure Call where
  through_then : Bool
  hdd : Ptr
  level : Int
  row_offset : Int
  col_offset : Int
  deriving DecidableEq

/-- The recursive calls that one invocation of `power_rec` makes itself, in order: none
after one of the three `return`s, otherwise two through `e` unless `e == zero`, then two
through `t` unless `t == zero`. -/
def direct_calls (g : Globals) (hdd : Ptr) (level row_offset col_offset : Int)
    (transpose : Bool) : List Call :=
  if hdd = g.zero then []
  else
    match (g.heap hdd).sm with
    | some _ => []
    | none =>
      if level = g.num_levels then []
      else
        (if (g.heap hdd).kids_e ≠ g.zero then
          if !transpose then
            [{ through_then := false, hdd := (g.heap (g.heap hdd).kids_e).kids_e,
               level := level + 1, row_offset := row_offset, col_offset := col_offset },
             { through_then := false, hdd := (g.heap (g.heap hdd).kids_e).kids_t,
               level := level + 1, row_offset := row_offset,
               col_offset := col_offset + (g.heap (g.heap hdd).kids_e).off }]
          else
            [{ through_then := false, hdd := (g.heap (g.heap hdd).kids_e).kids_e,
               level := level + 1, row_offset := row_offset, col_offset := col_offset },
             { through_then := false, hdd := (g.heap (g.heap hdd).kids_e).kids_t,
               level := level + 1,
               row_offset := row_offset + (g.heap (g.heap hdd).kids_e).off,
               col_offset := col_offset }]
        else []) ++
        (if (g.heap hdd).kids_t ≠ g.zero then
          if !transpose then
            [{ through_then := true, hdd := (g.heap (g.heap hdd).kids_t).kids_e,
               level := level + 1, row_offset := row_offset + (g.heap hdd).off,
               col_offset := col_offset },
             { through_then := true, hdd := (g.heap (g.heap hdd).kids_t).kids_t,
               level := level + 1, row_offset := row_offset + (g.heap hdd).off,
               col_offset := col_offset + (g.heap (g.heap hdd).kids_t).off }]
          else
            [{ through_then := true, hdd := (g.heap (g.heap hdd).kids_t).kids_e,
               level := level + 1, row_offset := row_offset,
               col_offset := col_offset + (g.heap hdd).off },
             { through_then := true, hdd := (g.heap (g.heap hdd).kids_t).kids_t,
               level := level + 1,
               row_offset := row_offset + (g.heap (g.heap hdd).kids_t).off,
               col_offset := col_offset + (g.heap hdd).off }]
        else [])

/-- Run `power_rec` on each call of a list in turn, with recursion depth `fuel`. -/
def run_calls (g : Globals) (fuel : Nat) (transpose : Bool) :
    List Call → Buffers → Option Buffers
  | [], s => some s
  | call :: rest, s =>
    (power_rec g fuel call.hdd call.level call.row_offset call.col_offset transpose s).bind
      (run_calls g fuel transpose rest)

/-- All recursive calls made below an invocation of `power_rec`, down to `depth` nested
calls, in the order they are made. -/
def all_calls (g : Globals) (transpose : Bool) : Nat → Ptr → Int → Int → Int → List Call
  | 0, _, _, _, _ => []
  | depth + 1, hdd, level, row_offset, col_offset =>
    (direct_calls g hdd level row_offset col_offset transpose).flatMap fun call =>
      call :: all_calls g transpose depth call.hdd call.level call.row_offset call.col_offset

/-- The update of the transposed matrix: row and column exchanged. -/
def transpose_update (u : Update) : Update :=
  { row := u.col, col := u.row, value := u.value }

/-- The number of rows of a block. -/
def block_rows : SparseMatrix → Int
  | .rm rmsm => rmsm.n
  | .cmsr cmsrsm => cmsrsm.n

/-- The `off` fields of the row nodes below `hdd` (with `d` levels below it) are well
formed for a subtree that spans `n` row indices: the rows of the `else` subtree of a row
node fit below its `off`, the rows of its `then` subtree fit in what remains of `n`, a
terminal value takes one row and a block its `n` rows. -/
def RowsWithin (g : Globals) : Nat → Ptr → Int → Prop
  | 0, hdd, n =>
    hdd = g.zero ∨
      match (g.heap hdd).sm with
      | some sm => block_rows sm ≤ n
      | none => 1 ≤ n
  | d + 1, hdd, n =>
    hdd = g.zero ∨
      match (g.heap hdd).sm with
      | some sm => block_rows sm ≤ n
      | none =>
        0 ≤ (g.heap hdd).off ∧ (g.heap hdd).off ≤ n ∧
        ((g.heap hdd).kids_e ≠ g.zero →
          RowsWithin g d (g.heap (g.heap hdd).kids_e).kids_e (g.heap hdd).off ∧
          RowsWithin g d (g.heap (g.heap hdd).kids_e).kids_t (g.heap hdd).off) ∧
        ((g.heap hdd).kids_t ≠ g.zero →
          RowsWithin g d (g.heap (g.heap hdd).kids_t).kids_e (n - (g.heap hdd).off) ∧
          RowsWithin g d (g.heap (g.heap hdd).kids_t).kids_t (n - (g.heap hdd).off))

/-- The entry `b[i]` of the right-hand side: 0 when `b` is null, `b_vec[i]` when it is
dense, `dist[ptrs[i]]` when it is compressed. -/
def rhs_value (a : PowerArgs) (i : Int) : ℚ :=
  if a.b_null then 0
  else if a.compact_b then a.b_dist_dist (a.b_dist_ptrs i : Int) else a.b_vec i

/-! ## Concrete inputs -/

/-- A pair of buffers: `soln = (1, 2, 4, 0, ...)` and `soln2 = 3` everywhere. -/
def exBufs : Buffers :=
  { soln := fun i => if i = 0 then 1 else if i = 1 then 2 else if i = 2 then 4 else 0,
    soln2 := fun _ => 3 }

/-- A plain block with two rows: row 0 holds `1/2` at column 0 and `1/4` at column 1,
row 1 holds `1/2` at column 1. -/
def exRM : RMSparseMatrix :=
  { n := 2, nnz := 3,
    non_zeros := fun j => if j = 1 then 1 / 4 else 1 / 2,
    row_counts := fun i => if i = 0 then 2 else 1,
    row_starts := fun i => if i = 0 then 0 else if i = 1 then 2 else 3,
    use_counts := false,
    cols := fun j => if j = 1 ∨ j = 2 then 1 else 0 }

/-- The table of distinct values of `exRM`. -/
def exDist : Int → ℚ := fun k => if k = 1 then 1 / 4 else 1 / 2

/-- The index into `exDist` of entry `j` of `exRM`. -/
def exIdx : Int → Nat := fun j => if j = 1 then 1 else 0

/-- The block `exRM` in compressed form, packed with shift 1. -/
def exCMSR : CMSRSparseMatrix :=
  { n := 2, nnz := 3,
    row_counts := fun i => if i = 0 then 2 else 1,
    row_starts := fun i => if i = 0 then 0 else if i = 1 then 2 else 3,
    use_counts := false,
    cols := fun j => if j = 1 then 3 else if j = 2 then 2 else 0 }

/-- A node without a block. -/
def exNode (e t : Ptr) (val : ℚ) (off : Int) : HDDNode :=
  { kids_e := e, kids_t := t, val := val, off := off, sm := none }

/-- The memory of a hybrid MTBDD without blocks for the matrix
`[[0, 1, 0], [1/2, 0, 1/2], [0, 1, 0]]` over two levels: states 0 and 1 lie below the
`else` branch of the top level (2 states), state 2 below its `then` branch.  Address 0 is the
zero terminal, address 1 the root, 9 and 10 the terminals `1` and `1/2`. -/
def exHeap : Ptr → HDDNode
  | 1 => exNode 2 3 0 2
  | 2 => exNode 4 5 0 2
  | 3 => exNode 6 0 0 2
  | 4 => exNode 7 8 0 1
  | 5 => exNode 0 8 0 1
  | 6 => exNode 7 0 0 1
  | 7 => exNode 0 9 0 1
  | 8 => exNode 10 0 0 1
  | 9 => exNode 0 0 1 0
  | 10 => exNode 0 0 (1 / 2) 0
  | _ => exNode 0 0 0 0

/-- The globals of a solve on `exHeap`. -/
def exGlobals : Globals :=
  { heap := exHeap, zero := 0, num_levels := 2, compact_sm := false,
    sm_dist := fun _ => 0, sm_dist_shift := 0, sm_dist_mask := 0 }

/-- A solve of the 3-state chain: matrix `exHeap` from root 1, no right-hand side, not
transposed, absolute termination with the given tolerance and cap on the iterations. -/
def exArgs (term_crit_param : ℚ) (max_iters : Int) : PowerArgs :=
  { g := exGlobals, hdd := 1, n := 3, b_null := true, compact_b := false,
    b_vec := fun _ => 0, b_dist_dist := fun _ => 0, b_dist_ptrs := fun _ => 0,
    transpose := false, term_crit := TERM_CRIT_ABSOLUTE,
    term_crit_param := term_crit_param, max_iters := max_iters, fuel := 3 }

/-- The solve `exArgs` with relative termination. -/
def exArgsRelative (term_crit_param : ℚ) (max_iters : Int) : PowerArgs :=
  { exArgs term_crit_param max_iters with term_crit := TERM_CRIT_RELATIVE }

/-- The tolerance `1e-8`. -/
def exTolerance : ℚ := 1 / 100000000

/-- The initial vector `[1, 0, 0]`. -/
def exInit : Vec := fun i => if i = 0 then 1 else 0

/-- A structure whose root, at address 1, carries the plain block `exRM`, the matrix
`[[1/2, 1/4], [0, 1/2]]`; address 0 is the zero terminal. -/
def exBlockGlobals : Globals :=
  { heap := fun p =>
      if p = 1 then { kids_e := 0, kids_t := 0, val := 0, off := 0, sm := some (.rm exRM) }
      else exNode 0 0 0 0,
    zero := 0, num_levels := 1, compact_sm := false,
    sm_dist := fun _ => 0, sm_dist_shift := 0, sm_dist_mask := 0 }

/-- A one-level diagram whose three `off` fields differ: the root, at address 1, has
`off = 5`, its `else` child `off = 7`, its `then` child `off = 11`; address 4 is a terminal
value and address 0 the zero terminal. -/
def exOffGlobals : Globals :=
  { heap := fun p =>
      if p = 1 then exNode 2 3 0 5
      else if p = 2 then exNode 4 4 0 7
      else if p = 3 then exNode 4 4 0 11
      else exNode 0 0 1 0,
    zero := 0, num_levels := 1, compact_sm := false,
    sm_dist := fun _ => 0, sm_dist_shift := 0, sm_dist_mask := 0 }

/-- A solve of the zero matrix on one state in relative mode: the root is the zero
terminal, there is no right-hand side, the tolerance is `1e-8`. -/
def exZeroMatrixArgs (max_iters : Int) : PowerArgs :=
  { g := { heap := fun _ => exNode 0 0 0 0, zero := 0, num_levels := 0, compact_sm := false,
           sm_dist := fun _ => 0, sm_dist_shift := 0, sm_dist_mask := 0 },
    hdd := 0, n := 1, b_null := true, compact_b := false,
    b_vec := fun _ => 0, b_dist_dist := fun _ => 0, b_dist_ptrs := fun _ => 0,
    transpose := false, term_crit := TERM_CRIT_RELATIVE,
    term_crit_param := exTolerance, max_iters := max_iters, fuel := 1 }

/-- Globals whose zero terminal, at address 1, carries a block. -/
def exZeroGlobals : Globals :=
  { exBlockGlobals with zero := 1 }

end PrismHybrid

/-! # The error message of the MTBDD engine (`PrismMTBDD.cc`) -/

namespace PrismMTBDD

/-- The character that ends a C string. -/
def NUL : Char := Char.ofNat 0

/-- The C library function `vsnprintf`, by its contract; `text` is what the format and its
arguments expand to.  With `size = 0` nothing is stored; otherwise the first `size - 1`
characters of `text` (all of them when there are fewer) are stored from index 0 on and a
`NUL` after them. -/
def vsnprintf (buf : Nat → Char) (size : Nat) (text : List Char) : Nat → Char :=
  if size = 0 then buf
  else fun i =>
    if i < min text.length (size - 1) then text.getD i NUL
    else if i = min text.length (size - 1) then NUL
    else buf i

/-- The function `PM_SetErrorMessage`: the new content of the global `error_message`.  The
constant `MAX_LOG_STRING_LEN`, defined as 1024 at the top of `PrismMTBDD.cc` like
`MAX_ERR_STRING_LEN`, the length of the array, is a parameter, which shows what depends
on it. -/
def PM_SetErrorMessage (MAX_LOG_STRING_LEN : Nat) (error_message : Nat → Char)
    (text : List Char) : Nat → Char :=
  vsnprintf error_message MAX_LOG_STRING_LEN text

/-- The function `PM_GetErrorMessage`: a pointer to the global `error_message`. -/
def PM_GetErrorMessage (error_message : Nat → Char) : Nat → Char :=
  error_message

/-- The C string that starts at index `i` of an array, read over at most `len` cells. -/
def c_string (buf : Nat → Char) : Nat → Nat → List Char
  | 0, _ => []
  | len + 1, i => if buf i = NUL then [] else buf i :: c_string buf len (i + 1)

/-- An array that holds the C string `abcdef`. -/
def exBuffer : Nat → Char := fun i => ("abcdef".toList).getD i NUL

end PrismMTBDD

namespace PrismHybrid

/-! ## Updates -/

theorem apply_updates_nil (s : Buffers) : apply_updates [] s = s := rfl

theorem apply_updates_cons (u : Update) (us : List Update) (s : Buffers) :
    apply_updates (u :: us) s = apply_updates us (accumulate u.row u.col u.value s) := rfl

theorem apply_updates_append (us vs : List Update) (s : Buffers) :
    apply_updates (us ++ vs) s = apply_updates vs (apply_updates us s) := by
  simp [apply_updates, List.foldl_append]

theorem apply_updates_soln (us : List Update) (s : Buffers) :
    (apply_updates us s).soln = s.soln := by
  induction us generalizing s with
  | nil => rfl
  | cons u us ih => rw [apply_updates_cons, ih]; rfl

theorem apply_updates_soln2 (us : List Update) (s : Buffers) (i : Int) :
    (apply_updates us s).soln2 i =
      s.soln2 i + ((us.filter fun u => decide (u.row = i)).map
        fun u => s.soln u.col * u.value).sum := by
  induction us generalizing s with
  | nil => simp [apply_updates_nil]
  | cons u us ih =>
    rw [apply_updates_cons, ih]
    by_cases h : u.row = i
    · simp [accumulate, h, List.filter_cons, add_assoc]
    · simp [accumulate, h, List.filter_cons, Function.update_noteq (Ne.symm h)]

theorem matrix_of_cons (u : Update) (us : List Update) (i c : Int) :
    matrix_of (u :: us) i c =
      (if u.row = i ∧ u.col = c then u.value else 0) + matrix_of us i c := by
  unfold matrix_of
  by_cases h : u.row = i ∧ u.col = c
  · simp [List.filter_cons, h]
  · simp [List.filter_cons, h]

theorem row_sum_eq_matrix_sum (us : List Update) (x : Vec) (i : Int) (S : Finset Int)
    (hS : ∀ u ∈ us, u.col ∈ S) :
    ((us.filter fun u => decide (u.row = i)).map fun u => x u.col * u.value).sum =
      ∑ c in S, matrix_of us i c * x c := by
  induction us with
  | nil => simp [matrix_of]
  | cons u us ih =>
    have hu : u.col ∈ S := hS u (List.mem_cons_self _ _)
    have hrest : ∀ v ∈ us, v.col ∈ S := fun v hv => hS v (List.mem_cons_of_mem _ hv)
    simp only [matrix_of_cons, add_mul, Finset.sum_add_distrib, ← ih hrest]
    by_cases h : u.row = i
    · simp [List.filter_cons, h, Finset.sum_ite_eq, hu, mul_comm]
    · simp [List.filter_cons, h]

/-! ## The sparse block kernels -/

theorem power_rm_entries_eq (rmsm : RMSparseMatrix) (row_offset col_offset i2 : Int)
    (k : Nat) (j2 : Int) (s : Buffers) :
    power_rm_entries rmsm row_offset col_offset i2 k j2 s =
      apply_updates ((List.range k).map fun (t : Nat) =>
        ({ row := row_offset + i2, col := col_offset + (rmsm.cols (j2 + (t : Int)) : Int),
           value := rmsm.non_zeros (j2 + (t : Int)) } : Update)) s := by
  induction k generalizing j2 s with
  | zero => rfl
  | succ k ih =>
    rw [power_rm_entries, ih, List.range_succ_eq_map, List.map_cons, apply_updates_cons,
      List.map_map]
    simp only [Nat.cast_zero, add_zero]
    congr 2
    funext t
    simp only [Function.comp, Nat.succ_eq_add_one, Nat.cast_add, Nat.cast_one]
    rw [show j2 + 1 + (t : Int) = j2 + ((t : Int) + 1) by ring]

theorem power_cmsr_entries_eq (sm_dist : Int → ℚ) (sm_dist_shift sm_dist_mask : Nat)
    (cmsrsm : CMSRSparseMatrix) (row_offset col_offset i2 : Int)
    (k : Nat) (j2 : Int) (s : Buffers) :
    power_cmsr_entries sm_dist sm_dist_shift sm_dist_mask cmsrsm row_offset col_offset i2 k
        j2 s =
      apply_updates ((List.range k).map fun (t : Nat) =>
        ({ row := row_offset + i2,
           col := col_offset + ((cmsrsm.cols (j2 + (t : Int)) >>> sm_dist_shift : Nat) : Int),
           value := sm_dist ((cmsrsm.cols (j2 + (t : Int)) &&& sm_dist_mask : Nat) : Int) } :
          Update)) s := by
  induction k generalizing j2 s with
  | zero => rfl
  | succ k ih =>
    rw [power_cmsr_entries, ih, List.range_succ_eq_map, List.map_cons, apply_updates_cons,
      List.map_map]
    simp only [Nat.cast_zero, add_zero]
    congr 2
    funext t
    simp only [Function.comp, Nat.succ_eq_add_one, Nat.cast_add, Nat.cast_one]
    rw [show j2 + 1 + (t : Int) = j2 + ((t : Int) + 1) by ring]

theorem range_succ_flatMap {α : Type} (f : Nat → List α) (k : Nat) :
    (List.range (k + 1)).flatMap f = f 0 ++ (List.range k).flatMap fun t => f (t + 1) := by
  rw [List.range_succ_eq_map, List.flatMap_cons, List.flatMap_map]

theorem power_rm_rows_eq (rmsm : RMSparseMatrix) (row_offset col_offset : Int)
    (k i : Nat) (l2 h2 : Int) (s : Buffers)
    (hh : rmsm.use_counts = true → h2 = count_before rmsm.row_counts i) :
    power_rm_rows rmsm row_offset col_offset k (i : Int) l2 h2 s =
      apply_updates ((List.range k).flatMap fun (t : Nat) =>
        (index_range (row_lo rmsm.use_counts rmsm.row_starts rmsm.row_counts (i + t))
            (row_hi rmsm.use_counts rmsm.row_starts rmsm.row_counts (i + t))).map fun j =>
          ({ row := row_offset + ((i + t : Nat) : Int), col := col_offset + (rmsm.cols j : Int),
             value := rmsm.non_zeros j } : Update)) s := by
  induction k generalizing i l2 h2 s with
  | zero => rfl
  | succ k ih =>
    rw [power_rm_rows, range_succ_flatMap, apply_updates_append]
    have hlo : (if !rmsm.use_counts then rmsm.row_starts (i : Int) else h2) =
        row_lo rmsm.use_counts rmsm.row_starts rmsm.row_counts i := by
      cases hu : rmsm.use_counts
      · simp [row_lo]
      · simp [row_lo, hh hu]
    have hhi : (if !rmsm.use_counts then rmsm.row_starts ((i : Int) + 1)
        else h2 + (rmsm.row_counts (i : Int) : Int)) =
        row_hi rmsm.use_counts rmsm.row_starts rmsm.row_counts i := by
      cases hu : rmsm.use_counts
      · simp [row_hi]
      · simp [row_hi, hh hu, count_before]
    simp only [hlo, hhi]
    have hnext := ih (i + 1) (row_lo rmsm.use_counts rmsm.row_starts rmsm.row_counts i)
      (row_hi rmsm.use_counts rmsm.row_starts rmsm.row_counts i)
      (power_rm_entries rmsm row_offset col_offset (i : Int)
        (row_hi rmsm.use_counts rmsm.row_starts rmsm.row_counts i -
          row_lo rmsm.use_counts rmsm.row_starts rmsm.row_counts i).toNat
        (row_lo rmsm.use_counts rmsm.row_starts rmsm.row_counts i) s)
      (fun hu => by simp [row_hi, hu])
    rw [Nat.cast_add, Nat.cast_one] at hnext
    rw [hnext, power_rm_entries_eq]
    simp only [index_range, List.map_map, Nat.add_zero, Function.comp_def]
    congr 2
    funext t
    rw [Nat.add_assoc i 1 t, Nat.add_comm 1 t]

theorem power_rm_eq (rmsm : RMSparseMatrix) (row_offset col_offset : Int) (s : Buffers) :
    power_rm rmsm row_offset col_offset s =
      apply_updates (rm_updates rmsm row_offset col_offset) s := by
  have h := power_rm_rows_eq rmsm row_offset col_offset rmsm.n.toNat 0 rmsm.nnz 0 s
    (fun _ => rfl)
  simp only [Nat.cast_zero, Nat.zero_add] at h
  exact h

theorem power_cmsr_rows_eq (sm_dist : Int → ℚ) (sm_dist_shift sm_dist_mask : Nat)
    (cmsrsm : CMSRSparseMatrix) (row_offset col_offset : Int)
    (k i : Nat) (l2 h2 : Int) (s : Buffers)
    (hh : cmsrsm.use_counts = true → h2 = count_before cmsrsm.row_counts i) :
    power_cmsr_rows sm_dist sm_dist_shift sm_dist_mask cmsrsm row_offset col_offset k
        (i : Int) l2 h2 s =
      apply_updates ((List.range k).flatMap fun (t : Nat) =>
        (index_range (row_lo cmsrsm.use_counts cmsrsm.row_starts cmsrsm.row_counts (i + t))
            (row_hi cmsrsm.use_counts cmsrsm.row_starts cmsrsm.row_counts (i + t))).map fun j =>
          ({ row := row_offset + ((i + t : Nat) : Int),
             col := col_offset + ((cmsrsm.cols j >>> sm_dist_shift : Nat) : Int),
             value := sm_dist ((cmsrsm.cols j &&& sm_dist_mask : Nat) : Int) } : Update)) s := by
  induction k generalizing i l2 h2 s with
  | zero => rfl
  | succ k ih =>
    rw [power_cmsr_rows, range_succ_flatMap, apply_updates_append]
    have hlo : (if !cmsrsm.use_counts then cmsrsm.row_starts (i : Int) else h2) =
        row_lo cmsrsm.use_counts cmsrsm.row_starts cmsrsm.row_counts i := by
      cases hu : cmsrsm.use_counts
      · simp [row_lo]
      · simp [row_lo, hh hu]
    have hhi : (if !cmsrsm.use_counts then cmsrsm.row_starts ((i : Int) + 1)
        else h2 + (cmsrsm.row_counts (i : Int) : Int)) =
        row_hi cmsrsm.use_counts cmsrsm.row_starts cmsrsm.row_counts i := by
      cases hu : cmsrsm.use_counts
      · simp [row_hi]
      · simp [row_hi, hh hu, count_before]
    simp only [hlo, hhi]
    have hnext := ih (i + 1) (row_lo cmsrsm.use_counts cmsrsm.row_starts cmsrsm.row_counts i)
      (row_hi cmsrsm.use_counts cmsrsm.row_starts cmsrsm.row_counts i)
      (power_cmsr_entries sm_dist sm_dist_shift sm_dist_mask cmsrsm row_offset col_offset
        (i : Int)
        (row_hi cmsrsm.use_counts cmsrsm.row_starts cmsrsm.row_counts i -
          row_lo cmsrsm.use_counts cmsrsm.row_starts cmsrsm.row_counts i).toNat
        (row_lo cmsrsm.use_counts cmsrsm.row_starts cmsrsm.row_counts i) s)
      (fun hu => by simp [row_hi, hu])
    rw [Nat.cast_add, Nat.cast_one] at hnext
    rw [hnext, power_cmsr_entries_eq]
    simp only [index_range, List.map_map, Nat.add_zero, Function.comp_def]
    congr 2
    funext t
    rw [Nat.add_assoc i 1 t, Nat.add_comm 1 t]

theorem power_cmsr_eq (sm_dist : Int → ℚ) (sm_dist_shift sm_dist_mask : Nat)
    (cmsrsm : CMSRSparseMatrix) (row_offset col_offset : Int) (s : Buffers) :
    power_cmsr sm_dist sm_dist_shift sm_dist_mask cmsrsm row_offset col_offset s =
      apply_updates
        (cmsr_updates sm_dist sm_dist_shift sm_dist_mask cmsrsm row_offset col_offset) s := by
  have h := power_cmsr_rows_eq sm_dist sm_dist_shift sm_dist_mask cmsrsm row_offset col_offset
    cmsrsm.n.toNat 0 cmsrsm.nnz 0 s (fun _ => rfl)
  simp only [Nat.cast_zero, Nat.zero_add] at h
  exact h

theorem index_range_sum (f : Int → ℚ) (l h : Int) :
    ((index_range l h).map f).sum = ∑ j in Finset.Ico l h, f j := by
  have hk : ∀ k : Nat, ((List.range k).map fun (t : Nat) => f (l + (t : Int))).sum =
      ∑ t in Finset.range k, f (l + (t : Int)) := by
    intro k
    induction k with
    | zero => simp
    | succ k ih => rw [List.range_succ, List.map_append, List.sum_append, ih,
        Finset.sum_range_succ]; simp
  rw [Int.Ico_eq_finset_map, Finset.sum_map, index_range, List.map_map]
  simpa [Function.comp_def] using hk (h - l).toNat

theorem rows_filter_sum (row_offset : Int) (G : Nat → List Update)
    (hG : ∀ t, ∀ u ∈ G t, u.row = row_offset + (t : Int)) (F : Update → ℚ) (n i : Nat) :
    ((((List.range n).flatMap G).filter fun u => decide (u.row = row_offset + (i : Int))).map
      F).sum = if i < n then ((G i).map F).sum else 0 := by
  induction n with
  | zero => simp
  | succ n ih =>
    rw [List.range_succ, List.flatMap_append, List.filter_append, List.map_append,
      List.sum_append, ih]
    simp only [List.flatMap_cons, List.flatMap_nil, List.append_nil]
    by_cases hin : n = i
    · subst hin
      have hall : (G n).filter (fun u => decide (u.row = row_offset + (n : Int))) = G n :=
        List.filter_eq_self.mpr fun u hu => by simp [hG n u hu]
      simp [hall]
    · have hnone : (G n).filter (fun u => decide (u.row = row_offset + (i : Int))) = [] :=
        List.filter_eq_nil_iff.mpr fun u hu => by
          have hne : (n : Int) ≠ (i : Int) := by exact_mod_cast hin
          simp [hG n u hu, hne]
      rw [hnone]
      by_cases hlt : i < n
      · simp [hlt, Nat.lt_succ_of_lt hlt]
      · have : ¬ i < n + 1 := by omega
        simp [hlt, this]

/-- C9: `power_rm` adds to `soln2[row_offset + i]`, for each row `i` of the block, the sum
over the entries `j` of that row of `soln[col_offset + cols[j]] * non_zeros[j]`; it leaves
`soln2` alone outside `[row_offset, row_offset + n)`, and it leaves `soln` alone. -/
theorem power_rm_spec (rmsm : RMSparseMatrix) (row_offset col_offset : Int) (s : Buffers) :
    (∀ i : Nat, (i : Int) < rmsm.n →
      (power_rm rmsm row_offset col_offset s).soln2 (row_offset + (i : Int)) =
        s.soln2 (row_offset + (i : Int)) +
          ∑ j in Finset.Ico (row_lo rmsm.use_counts rmsm.row_starts rmsm.row_counts i)
              (row_hi rmsm.use_counts rmsm.row_starts rmsm.row_counts i),
            s.soln (col_offset + (rmsm.cols j : Int)) * rmsm.non_zeros j) ∧
    (∀ x : Int, ¬ (row_offset ≤ x ∧ x < row_offset + rmsm.n) →
      (power_rm rmsm row_offset col_offset s).soln2 x = s.soln2 x) ∧
    (power_rm rmsm row_offset col_offset s).soln = s.soln := by
  refine ⟨?_, ?_, ?_⟩
  · intro i hi
    rw [power_rm_eq, apply_updates_soln2, rm_updates, rows_filter_sum]
    · have hlt : i < rmsm.n.toNat := by omega
      rw [if_pos hlt, List.map_map, index_range_sum]
      rfl
    · intro t u hu
      simp only [List.mem_map] at hu
      obtain ⟨j, _, rfl⟩ := hu
      rfl
  · intro x hx
    rw [power_rm_eq, apply_updates_soln2]
    have hnone : (rm_updates rmsm row_offset col_offset).filter
        (fun u => decide (u.row = x)) = [] := by
      apply List.filter_eq_nil_iff.mpr
      intro u hu
      simp only [rm_updates, List.mem_flatMap, List.mem_range, List.mem_map] at hu
      obtain ⟨t, ht, j, _, rfl⟩ := hu
      have : row_offset + (t : Int) ≠ x := by
        intro h
        apply hx
        omega
      simpa using this
    simp [hnone]
  · rw [power_rm_eq, apply_updates_soln]

/-- Witness of C9 on the block `exRM` placed at `(5, 7)`, row 1. -/
theorem power_rm_spec_witness :
    (power_rm exRM 5 7 exBufs).soln2 (5 + ((1 : Nat) : Int)) =
      exBufs.soln2 (5 + ((1 : Nat) : Int)) +
        ∑ j in Finset.Ico (row_lo exRM.use_counts exRM.row_starts exRM.row_counts 1)
            (row_hi exRM.use_counts exRM.row_starts exRM.row_counts 1),
          exBufs.soln (7 + (exRM.cols j : Int)) * exRM.non_zeros j :=
  (power_rm_spec exRM 5 7 exBufs).1 1 (by decide)

theorem mem_index_range (l h j : Int) : j ∈ index_range l h ↔ l ≤ j ∧ j < h := by
  simp only [index_range, List.mem_map, List.mem_range]
  constructor
  · rintro ⟨k, hk, rfl⟩
    omega
  · rintro ⟨h1, h2⟩
    exact ⟨(j - l).toNat, by omega, by omega⟩

theorem flatMap_range_congr {α : Type} (f g : Nat → List α) (n : Nat)
    (h : ∀ t, t < n → f t = g t) : (List.range n).flatMap f = (List.range n).flatMap g := by
  induction n with
  | zero => rfl
  | succ n ih =>
    rw [List.range_succ, List.flatMap_append, List.flatMap_append,
      ih fun t ht => h t (Nat.lt_succ_of_lt ht)]
    simp [h n (Nat.lt_succ_self n)]

theorem unpack_col (c i shift : Nat) (hi : i < 2 ^ shift) :
    (c * 2 ^ shift + i) >>> shift = c := by
  rw [Nat.shiftRight_eq_div_pow, Nat.add_comm, Nat.add_mul_div_right _ _ (Nat.two_pow_pos shift),
    Nat.div_eq_of_lt hi, Nat.zero_add]

theorem unpack_idx (c i shift : Nat) (hi : i < 2 ^ shift) :
    (c * 2 ^ shift + i) &&& (2 ^ shift - 1) = i := by
  rw [Nat.and_pow_two_sub_one_eq_mod, Nat.add_comm, Nat.add_mul_mod_self_right,
    Nat.mod_eq_of_lt hi]

/-- C10: when the compressed block has the row structure of the plain one and each of its
words is `cols[j] * 2^shift + idx[j]` with `idx[j] < 2^shift`, fits in 32 bits and selects
the value `non_zeros[j]` in `sm_dist`, then with `mask = 2^shift - 1` the kernel
`power_cmsr` leaves the buffers as `power_rm` does, and `(word >> shift, word & mask)` gives
back `(cols[j], idx[j])`. -/
theorem power_cmsr_eq_power_rm (sm_dist : Int → ℚ) (shift : Nat) (rmsm : RMSparseMatrix)
    (cmsrsm : CMSRSparseMatrix) (idx : Int → Nat) (row_offset col_offset : Int) (s : Buffers)
    (hn : cmsrsm.n = rmsm.n) (hu : cmsrsm.use_counts = rmsm.use_counts)
    (hstarts : cmsrsm.row_starts = rmsm.row_starts)
    (hcounts : cmsrsm.row_counts = rmsm.row_counts)
    (hpacked : ∀ i : Nat, (i : Int) < rmsm.n → ∀ j : Int,
      row_lo rmsm.use_counts rmsm.row_starts rmsm.row_counts i ≤ j →
      j < row_hi rmsm.use_counts rmsm.row_starts rmsm.row_counts i →
        cmsrsm.cols j = rmsm.cols j * 2 ^ shift + idx j ∧ idx j < 2 ^ shift ∧
        cmsrsm.cols j < 2 ^ 32 ∧ sm_dist (idx j : Int) = rmsm.non_zeros j) :
    power_cmsr sm_dist shift (2 ^ shift - 1) cmsrsm row_offset col_offset s =
        power_rm rmsm row_offset col_offset s ∧
      ∀ i : Nat, (i : Int) < rmsm.n → ∀ j : Int,
        row_lo rmsm.use_counts rmsm.row_starts rmsm.row_counts i ≤ j →
        j < row_hi rmsm.use_counts rmsm.row_starts rmsm.row_counts i →
          cmsrsm.cols j >>> shift = rmsm.cols j ∧
          cmsrsm.cols j &&& (2 ^ shift - 1) = idx j := by
  have hdecode : ∀ i : Nat, (i : Int) < rmsm.n → ∀ j : Int,
      row_lo rmsm.use_counts rmsm.row_starts rmsm.row_counts i ≤ j →
      j < row_hi rmsm.use_counts rmsm.row_starts rmsm.row_counts i →
        cmsrsm.cols j >>> shift = rmsm.cols j ∧
        cmsrsm.cols j &&& (2 ^ shift - 1) = idx j := by
    intro i hi j hl hh
    obtain ⟨hp, hidx, _, _⟩ := hpacked i hi j hl hh
    rw [hp]
    exact ⟨unpack_col _ _ _ hidx, unpack_idx _ _ _ hidx⟩
  refine ⟨?_, hdecode⟩
  rw [power_cmsr_eq, power_rm_eq, cmsr_updates, rm_updates, hn, hu, hstarts, hcounts]
  congr 1
  apply flatMap_range_congr
  intro t ht
  apply List.map_congr_left
  intro j hj
  rw [mem_index_range] at hj
  have hti : (t : Int) < rmsm.n := by omega
  obtain ⟨hc, hv⟩ := hdecode t hti j hj.1 hj.2
  obtain ⟨_, _, _, hd⟩ := hpacked t hti j hj.1 hj.2
  rw [hc, hv, hd]

/-- Witness of C10 on the blocks `exRM` and `exCMSR`, packed with shift 1. -/
theorem power_cmsr_eq_power_rm_witness :
    power_cmsr exDist 1 (2 ^ 1 - 1) exCMSR 5 7 exBufs = power_rm exRM 5 7 exBufs :=
  (power_cmsr_eq_power_rm exDist 1 exRM exCMSR exIdx 5 7 exBufs rfl rfl rfl rfl
    (by
      intro i _ j _ _
      by_cases h1 : j = 1
      · subst h1
        simp [exRM, exCMSR, exIdx, exDist]
      · by_cases h2 : j = 2
        · subst h2
          simp [exRM, exCMSR, exIdx, exDist]
        · simp [exRM, exCMSR, exIdx, exDist, h1, h2])).1

/-! ## The traversal -/

theorem block_dispatch (g : Globals) (sm : SparseMatrix) (r c : Int) (s : Buffers) :
    kind_matches g.compact_sm sm = true →
    (if !g.compact_sm then
        match sm with
        | .rm rmsm => some (power_rm rmsm r c s)
        | .cmsr _ => none
      else
        match sm with
        | .cmsr cmsrsm =>
          some (power_cmsr g.sm_dist g.sm_dist_shift g.sm_dist_mask cmsrsm r c s)
        | .rm _ => none) = some (apply_updates (block_updates g sm r c) s) := by
  intro hk
  cases sm with
  | rm rmsm =>
    cases hc : g.compact_sm
    · simp [block_updates, power_rm_eq]
    · simp [kind_matches, hc] at hk
  | cmsr cmsrsm =>
    cases hc : g.compact_sm
    · simp [kind_matches, hc] at hk
    · simp [block_updates, power_cmsr_eq]

theorem power_rec_eq_updates (g : Globals) (hm : BlocksMatch g) (transpose : Bool) (d : Nat) :
    ∀ (fuel : Nat) (hdd : Ptr) (level r c : Int) (s : Buffers),
      level + (d : Int) = g.num_levels → d < fuel →
      power_rec g fuel hdd level r c transpose s =
        some (apply_updates (hybrid_updates g transpose d hdd r c) s) := by
  induction d with
  | zero =>
    intro fuel hdd level r c s hl hf
    obtain ⟨f, rfl⟩ : ∃ f, fuel = f + 1 := ⟨fuel - 1, by omega⟩
    rw [power_rec, hybrid_updates]
    by_cases hz : hdd = g.zero
    · simp [hz, apply_updates_nil]
    · simp only [hz, if_false]
      cases hsm : (g.heap hdd).sm with
      | some sm =>
        dsimp only
        exact block_dispatch g sm r c s (hm hdd sm hsm)
      | none =>
        have hlev : level = g.num_levels := by omega
        simp [hlev, apply_updates_cons, apply_updates_nil]
  | succ d ih =>
    intro fuel hdd level r c s hl hf
    obtain ⟨f, rfl⟩ : ∃ f, fuel = f + 1 := ⟨fuel - 1, by omega⟩
    have hl1 : level + 1 + (d : Int) = g.num_levels := by push_cast at hl; omega
    have hf1 : d < f := by omega
    rw [power_rec, hybrid_updates]
    by_cases hz : hdd = g.zero
    · simp [hz, apply_updates_nil]
    · simp only [hz, if_false]
      cases hsm : (g.heap hdd).sm with
      | some sm =>
        dsimp only
        exact block_dispatch g sm r c s (hm hdd sm hsm)
      | none =>
        have hlev : ¬ level = g.num_levels := by push_cast at hl; omega
        simp only [hlev, if_false, ih f _ (level + 1) _ _ _ hl1 hf1, Option.some_bind,
          apply_updates_append]
        by_cases he : (g.heap hdd).kids_e = g.zero <;>
          by_cases ht : (g.heap hdd).kids_t = g.zero <;>
          cases transpose <;>
          simp [he, ht, apply_updates_nil, apply_updates_append]

theorem hybrid_updates_block_free (g : Globals) (hfree : ∀ p, (g.heap p).sm = none)
    (d : Nat) : ∀ (hdd : Ptr) (r c : Int),
      hybrid_updates g false d hdd r c = paths g d hdd r c := by
  induction d with
  | zero =>
    intro hdd r c
    simp [hybrid_updates, paths, hfree]
  | succ d ih =>
    intro hdd r c
    simp [hybrid_updates, paths, hfree, ih]

theorem blocksMatch_of_block_free (g : Globals) (hfree : ∀ p, (g.heap p).sm = none) :
    BlocksMatch g := by
  intro p sm h
  rw [hfree p] at h
  cases h

/-- C1: on a diagram without blocks and with `L` levels, `power_rec` from the root at level
0 and offsets 0, 0, not transposed, applies one update `soln2[r] += soln[c] * v` per path
from the root to a terminal value, so that afterwards `soln2[i]` is its old value plus the
sum over `c` of `A[i][c] * soln[c]`, where `A` is the matrix the paths stand for and `c`
ranges over any finite set that holds the columns of all paths. -/
theorem power_rec_block_free (g : Globals) (L fuel : Nat) (root : Ptr) (s : Buffers)
    (hfree : ∀ p, (g.heap p).sm = none) (hL : g.num_levels = (L : Int)) (hfuel : L < fuel) :
    ∃ s', power_rec g fuel root 0 0 0 false s = some s' ∧
      s' = apply_updates (paths g L root 0 0) s ∧
      ∀ S : Finset Int, (∀ u ∈ paths g L root 0 0, u.col ∈ S) → ∀ i : Int,
        s'.soln2 i = s.soln2 i + ∑ c in S, matrix_of (paths g L root 0 0) i c * s.soln c := by
  refine ⟨apply_updates (paths g L root 0 0) s, ?_, rfl, ?_⟩
  · rw [power_rec_eq_updates g (blocksMatch_of_block_free g hfree) false L fuel root 0 0 0 s
      (by omega) hfuel, hybrid_updates_block_free g hfree]
  · intro S hS i
    rw [apply_updates_soln2, row_sum_eq_matrix_sum _ _ _ S hS]

/-- Witness of C1 on the diagram `exHeap` of the 3-state chain. -/
theorem power_rec_block_free_witness :
    ∃ s', power_rec exGlobals 3 1 0 0 0 false exBufs = some s' ∧
      s' = apply_updates (paths exGlobals 2 1 0 0) exBufs ∧
      ∀ S : Finset Int, (∀ u ∈ paths exGlobals 2 1 0 0, u.col ∈ S) → ∀ i : Int,
        s'.soln2 i =
          exBufs.soln2 i + ∑ c in S, matrix_of (paths exGlobals 2 1 0 0) i c * exBufs.soln c :=
  power_rec_block_free exGlobals 2 3 1 exBufs
    (by intro p; show (exHeap p).sm = none; unfold exHeap; split <;> rfl) rfl (by decide)

/-! ## One iteration -/

theorem init_soln2_soln (rhs : Int → ℚ) (k : Nat) (i0 : Int) (s : Buffers) :
    (init_soln2 rhs k i0 s).soln = s.soln := by
  induction k generalizing i0 s with
  | zero => rfl
  | succ k ih => rw [init_soln2, ih]

theorem init_soln2_soln2 (rhs : Int → ℚ) (k : Nat) (i0 : Int) (s : Buffers) (x : Int) :
    (init_soln2 rhs k i0 s).soln2 x =
      if i0 ≤ x ∧ x < i0 + (k : Int) then rhs x else s.soln2 x := by
  induction k generalizing i0 s with
  | zero =>
    have : ¬ (i0 ≤ x ∧ x < i0 + ((0 : Nat) : Int)) := by omega
    rw [if_neg this]
    rfl
  | succ k ih =>
    rw [init_soln2, ih]
    by_cases hx : x = i0
    · subst hx
      have h1 : ¬ (x + 1 ≤ x ∧ x < x + 1 + (k : Int)) := by omega
      have h2 : x ≤ x ∧ x < x + ((k + 1 : Nat) : Int) := by push_cast; omega
      rw [if_neg h1, if_pos h2]
      simp
    · by_cases hin : i0 + 1 ≤ x ∧ x < i0 + 1 + (k : Int)
      · have h2 : i0 ≤ x ∧ x < i0 + ((k + 1 : Nat) : Int) := by push_cast; omega
        rw [if_pos hin, if_pos h2]
      · have h2 : ¬ (i0 ≤ x ∧ x < i0 + ((k + 1 : Nat) : Int)) := by push_cast; omega
        rw [if_neg hin, if_neg h2]
        simp [Function.update_noteq hx]

theorem initialise_vector_soln (a : PowerArgs) (s : Buffers) :
    (initialise_vector a s).soln = s.soln := by
  unfold initialise_vector
  split
  · exact init_soln2_soln _ _ _ _
  · split
    · exact init_soln2_soln _ _ _ _
    · exact init_soln2_soln _ _ _ _

theorem initialise_vector_soln2 (a : PowerArgs) (s : Buffers) (i : Int)
    (h0 : 0 ≤ i) (hn : i < a.n) :
    (initialise_vector a s).soln2 i =
      if a.b_null then 0
      else if a.compact_b then a.b_dist_dist (a.b_dist_ptrs i : Int) else a.b_vec i := by
  have hin : (0 : Int) ≤ i ∧ i < 0 + (a.n.toNat : Int) := by omega
  unfold initialise_vector
  cases a.b_null <;> cases a.compact_b <;> simp <;>
    rw [init_soln2_soln2, if_pos hin]

theorem matrix_multiply_eq (a : PowerArgs) (hw : WellSetUp a) (s : Buffers) :
    matrix_multiply a s =
      some (apply_updates (hybrid_updates a.g a.transpose a.g.num_levels.toNat a.hdd 0 0)
        (initialise_vector a s)) := by
  obtain ⟨hm, h0, hf⟩ := hw
  unfold matrix_multiply
  exact power_rec_eq_updates a.g hm a.transpose a.g.num_levels.toNat a.fuel a.hdd 0 0 0 _
    (by omega) (by omega)

/-- C2: on a solve that is well set up, the multiply of one iteration succeeds, leaves
`soln` alone and leaves in `soln2[i]`, for each state index `i` in `[0, n)`, the value
`b[i] + (A soln)[i]`, with `b[i]` being 0 when `b` is null, `b_vec[i]` when `b` is dense and
`dist[ptrs[i]]` when it is compressed; `A` is the matrix of the hybrid structure and the
columns range over any finite set holding those of its entries.  The result on `[0, n)` is
the same whatever `soln2` held before. -/
theorem matrix_multiply_spec (a : PowerArgs) (s : Buffers) (S : Finset Int)
    (hw : WellSetUp a)
    (hS : ∀ u ∈ hybrid_updates a.g a.transpose a.g.num_levels.toNat a.hdd 0 0, u.col ∈ S) :
    ∃ s', matrix_multiply a s = some s' ∧ s'.soln = s.soln ∧
      (∀ i : Int, 0 ≤ i → i < a.n →
        (a.b_null = true → s'.soln2 i = 0 + ∑ c in S,
          matrix_of (hybrid_updates a.g a.transpose a.g.num_levels.toNat a.hdd 0 0) i c *
            s.soln c) ∧
        (a.b_null = false → a.compact_b = false → s'.soln2 i = a.b_vec i + ∑ c in S,
          matrix_of (hybrid_updates a.g a.transpose a.g.num_levels.toNat a.hdd 0 0) i c *
            s.soln c) ∧
        (a.b_null = false → a.compact_b = true →
          s'.soln2 i = a.b_dist_dist (a.b_dist_ptrs i : Int) + ∑ c in S,
            matrix_of (hybrid_updates a.g a.transpose a.g.num_levels.toNat a.hdd 0 0) i c *
              s.soln c)) ∧
      ∀ scratch : Vec, ∃ s'', matrix_multiply a { soln := s.soln, soln2 := scratch } = some s'' ∧
        s''.soln = s'.soln ∧ ∀ i : Int, 0 ≤ i → i < a.n → s''.soln2 i = s'.soln2 i := by
  refine ⟨_, matrix_multiply_eq a hw s, ?_, ?_, ?_⟩
  · rw [apply_updates_soln, initialise_vector_soln]
  · intro i h0 hn
    rw [apply_updates_soln2, initialise_vector_soln2 a s i h0 hn, initialise_vector_soln,
      row_sum_eq_matrix_sum _ _ _ S hS]
    refine ⟨?_, ?_, ?_⟩
    · intro hb
      simp [hb]
    · intro hb hc
      simp [hb, hc]
    · intro hb hc
      simp [hb, hc]
  · intro scratch
    refine ⟨_, matrix_multiply_eq a hw _, ?_, ?_⟩
    · simp only [apply_updates_soln, initialise_vector_soln]
    · intro i h0 hn
      simp only [apply_updates_soln2, initialise_vector_soln2 _ _ i h0 hn,
        initialise_vector_soln]

theorem exArgs_wellSetUp (tol : ℚ) (max_iters : Int) : WellSetUp (exArgs tol max_iters) := by
  refine ⟨?_, by show (0 : Int) ≤ 2; decide, by show (2 : Int) < ((3 : Nat) : Int); decide⟩
  apply blocksMatch_of_block_free
  intro p
  show (exHeap p).sm = none
  unfold exHeap
  split <;> rfl

theorem exArgs_updates (tol : ℚ) (max_iters : Int) :
    hybrid_updates (exArgs tol max_iters).g (exArgs tol max_iters).transpose
        (exArgs tol max_iters).g.num_levels.toNat (exArgs tol max_iters).hdd 0 0 =
      [⟨0, 1, 1⟩, ⟨1, 0, 1 / 2⟩, ⟨1, 2, 1 / 2⟩, ⟨2, 1, 1⟩] := by
  show hybrid_updates exGlobals false 2 1 0 0 = _
  simp [hybrid_updates, exGlobals, exHeap, exNode]

/-- Witness of C2 on the 3-state chain, with columns in `{0, 1, 2}`. -/
theorem matrix_multiply_spec_witness :
    WellSetUp (exArgs exTolerance 5) ∧
      ∃ s', matrix_multiply (exArgs exTolerance 5) exBufs = some s' ∧
        s'.soln = exBufs.soln := by
  refine ⟨exArgs_wellSetUp exTolerance 5, ?_⟩
  obtain ⟨s', h1, h2, _⟩ := matrix_multiply_spec (exArgs exTolerance 5) exBufs {0, 1, 2}
    (exArgs_wellSetUp exTolerance 5) (by rw [exArgs_updates]; simp)
  exact ⟨s', h1, h2⟩

/-! ## The loop -/

theorem while_loop_stop (a : PowerArgs) (st : LoopState)
    (h : ¬ (st.done = false ∧ st.iters < a.max_iters)) : while_loop a st = some st := by
  rw [while_loop, dif_neg h]

theorem while_loop_step (a : PowerArgs) (st : LoopState) (m : Buffers)
    (h : st.done = false ∧ st.iters < a.max_iters) (hm : matrix_multiply a st.bufs = some m) :
    while_loop a st =
      while_loop a
        { iters := st.iters + 1, done := check_convergence a m false, bufs := swap m } := by
  rw [while_loop, dif_pos h]
  simp only [hm, h.1]

theorem while_loop_step_none (a : PowerArgs) (st : LoopState)
    (h : st.done = false ∧ st.iters < a.max_iters) (hm : matrix_multiply a st.bufs = none) :
    while_loop a st = none := by
  rw [while_loop, dif_pos h]
  simp only [hm]

theorem bufs_after_succ (a : PowerArgs) (s : Buffers) (k : Nat) :
    bufs_after a s (k + 1) =
      (matrix_multiply a s).bind fun m => bufs_after a (swap m) k := by
  induction k with
  | zero =>
    cases h : matrix_multiply a s <;> simp [bufs_after, h]
  | succ k ih =>
    rw [bufs_after, ih]
    cases h : matrix_multiply a s with
    | none => rfl
    | some m => simp [bufs_after]

theorem multiply_at_zero (a : PowerArgs) (s : Buffers) :
    multiply_at a s 0 = matrix_multiply a s := rfl

theorem multiply_at_succ (a : PowerArgs) (s m : Buffers) (k : Nat)
    (hm : matrix_multiply a s = some m) :
    multiply_at a s (k + 1) = multiply_at a (swap m) k := by
  unfold multiply_at
  rw [bufs_after_succ, hm]
  rfl

theorem converges_at_succ (a : PowerArgs) (s m : Buffers) (k : Nat)
    (hm : matrix_multiply a s = some m) :
    converges_at a s (k + 1) = converges_at a (swap m) k := by
  unfold converges_at
  rw [multiply_at_succ a s m k hm]

theorem multiply_at_succ_defined (a : PowerArgs) (s m : Buffers) (k : Nat)
    (h : multiply_at a s (k + 1) = some m) : ∃ m0, matrix_multiply a s = some m0 := by
  cases h0 : matrix_multiply a s with
  | some m0 => exact ⟨m0, rfl⟩
  | none =>
    unfold multiply_at at h
    rw [bufs_after_succ, h0] at h
    cases h

theorem converges_at_zero (a : PowerArgs) (s m : Buffers)
    (hm : matrix_multiply a s = some m) :
    converges_at a s 0 = check_convergence a m false := by
  unfold converges_at
  rw [multiply_at_zero, hm]

theorem while_loop_converges (a : PowerArgs) :
    ∀ (k : Nat) (st : LoopState) (m : Buffers), st.done = false →
      st.iters + (k : Int) < a.max_iters →
      multiply_at a st.bufs k = some m → check_convergence a m false = true →
      (∀ j, j < k → converges_at a st.bufs j = false) →
      while_loop a st =
        some { iters := st.iters + (k : Int) + 1, done := true, bufs := swap m } := by
  intro k
  induction k with
  | zero =>
    intro st m hd hlt hm hc _
    rw [multiply_at_zero] at hm
    rw [while_loop_step a st m ⟨hd, by omega⟩ hm, hc, while_loop_stop _ _ (by simp)]
    simp
  | succ k ih =>
    intro st m hd hlt hm hc hno
    obtain ⟨m0, hm0⟩ := multiply_at_succ_defined a st.bufs m k hm
    have hc0 : check_convergence a m0 false = false := by
      rw [← converges_at_zero a st.bufs m0 hm0]
      exact hno 0 (Nat.succ_pos k)
    rw [while_loop_step a st m0 ⟨hd, by omega⟩ hm0, hc0]
    rw [ih { iters := st.iters + 1, done := false, bufs := swap m0 } m rfl
      (by push_cast at hlt; show st.iters + 1 + (k : Int) < a.max_iters; omega)
      (by rw [← multiply_at_succ a st.bufs m0 k hm0]; exact hm) hc
      (fun j hj => by
        rw [← converges_at_succ a st.bufs m0 j hm0]
        exact hno (j + 1) (Nat.succ_lt_succ hj))]
    congr 2
    push_cast
    ring

theorem while_loop_exhausts (a : PowerArgs) :
    ∀ (r : Nat) (st : LoopState), st.done = false → a.max_iters = st.iters + (r : Int) →
      (∀ j, j < r → converges_at a st.bufs j = false) →
      (∀ j, j < r → ∃ m, multiply_at a st.bufs j = some m) →
      ∃ b, bufs_after a st.bufs r = some b ∧
        while_loop a st = some { iters := a.max_iters, done := false, bufs := b } := by
  intro r
  induction r with
  | zero =>
    intro st hd hmax _ _
    refine ⟨st.bufs, rfl, ?_⟩
    rw [while_loop_stop a st (by omega)]
    cases st
    simp only [Nat.cast_zero, add_zero] at hmax
    simp_all
  | succ r ih =>
    intro st hd hmax hno hdef
    obtain ⟨m0, hm0⟩ := hdef 0 (Nat.succ_pos r)
    rw [multiply_at_zero] at hm0
    have hc0 : check_convergence a m0 false = false := by
      rw [← converges_at_zero a st.bufs m0 hm0]
      exact hno 0 (Nat.succ_pos r)
    obtain ⟨b, hb, hloop⟩ := ih { iters := st.iters + 1, done := false, bufs := swap m0 } rfl
      (by push_cast at hmax; show a.max_iters = st.iters + 1 + (r : Int); omega)
      (fun j hj => by
        rw [← converges_at_succ a st.bufs m0 j hm0]
        exact hno (j + 1) (Nat.succ_lt_succ hj))
      (fun j hj => by
        obtain ⟨m, hm⟩ := hdef (j + 1) (Nat.succ_lt_succ hj)
        exact ⟨m, by rw [← multiply_at_succ a st.bufs m0 j hm0]; exact hm⟩)
    refine ⟨b, ?_, ?_⟩
    · rw [bufs_after_succ, hm0]
      exact hb
    · rw [while_loop_step a st m0 ⟨hd, by push_cast at hmax; omega⟩ hm0, hc0]
      exact hloop

theorem bufs_after_defined (a : PowerArgs) (hw : WellSetUp a) (s : Buffers) (k : Nat) :
    ∃ b, bufs_after a s k = some b := by
  induction k with
  | zero => exact ⟨s, rfl⟩
  | succ k ih =>
    obtain ⟨b, hb⟩ := ih
    rw [bufs_after, hb, Option.some_bind, matrix_multiply_eq a hw]
    exact ⟨_, rfl⟩

theorem multiply_at_defined (a : PowerArgs) (hw : WellSetUp a) (s : Buffers) (k : Nat) :
    ∃ m, multiply_at a s k = some m := by
  obtain ⟨b, hb⟩ := bufs_after_defined a hw s k
  unfold multiply_at
  rw [hb, Option.some_bind, matrix_multiply_eq a hw]
  exact ⟨_, rfl⟩

theorem converges_at_true (a : PowerArgs) (s : Buffers) (k : Nat)
    (h : converges_at a s k = true) :
    ∃ m, multiply_at a s k = some m ∧ check_convergence a m false = true := by
  unfold converges_at at h
  cases hm : multiply_at a s k with
  | none => rw [hm] at h; cases h
  | some m => rw [hm] at h; exact ⟨m, rfl, h⟩

/-- On a solve that is well set up, the loop either stops at the first iteration whose
convergence test succeeds, or runs `max_iters` iterations none of which converges. -/
theorem while_loop_cases (a : PowerArgs) (hw : WellSetUp a) (hmax : 0 ≤ a.max_iters)
    (s : Buffers) :
    (∃ (k : Nat) (m : Buffers), (k : Int) < a.max_iters ∧ multiply_at a s k = some m ∧
        check_convergence a m false = true ∧ (∀ j, j < k → converges_at a s j = false) ∧
        while_loop a { iters := 0, done := false, bufs := s } =
          some { iters := (k : Int) + 1, done := true, bufs := swap m }) ∨
      ((∀ j : Nat, (j : Int) < a.max_iters → converges_at a s j = false) ∧
        ∃ b, bufs_after a s a.max_iters.toNat = some b ∧
          while_loop a { iters := 0, done := false, bufs := s } =
            some { iters := a.max_iters, done := false, bufs := b }) := by
  classical
  by_cases hex : ∃ k : Nat, (k : Int) < a.max_iters ∧ converges_at a s k = true
  · left
    have hk := Nat.find_spec hex
    obtain ⟨m, hm, hc⟩ := converges_at_true a s _ hk.2
    refine ⟨Nat.find hex, m, hk.1, hm, hc, ?_, ?_⟩
    · intro j hj
      have hnot := Nat.find_min hex hj
      have hjlt : (j : Int) < a.max_iters := by omega
      cases hcj : converges_at a s j
      · rfl
      · exact absurd ⟨hjlt, hcj⟩ hnot
    · have h := while_loop_converges a (Nat.find hex)
        { iters := 0, done := false, bufs := s } m rfl (by simpa using hk.1) hm hc
        (fun j hj => by
          have hnot := Nat.find_min hex hj
          have hjlt : (j : Int) < a.max_iters := by omega
          cases hcj : converges_at a s j
          · rfl
          · exact absurd ⟨hjlt, hcj⟩ hnot)
      simpa using h
  · right
    have hno : ∀ j : Nat, (j : Int) < a.max_iters → converges_at a s j = false := by
      intro j hj
      cases hcj : converges_at a s j
      · rfl
      · exact absurd ⟨j, hj, hcj⟩ hex
    refine ⟨hno, ?_⟩
    exact while_loop_exhausts a a.max_iters.toNat { iters := 0, done := false, bufs := s } rfl
      (by show a.max_iters = 0 + (a.max_iters.toNat : Int); omega)
      (fun j hj => hno j (by omega))
      (fun j _ => multiply_at_defined a hw s j)

theorem bind_keeps_soln (f g : Buffers → Option Buffers)
    (hf : ∀ s s', f s = some s' → s'.soln = s.soln)
    (hg : ∀ s s', g s = some s' → s'.soln = s.soln) (s s' : Buffers)
    (h : (f s).bind g = some s') : s'.soln = s.soln := by
  obtain ⟨x, hx1, hx2⟩ := Option.bind_eq_some.mp h
  exact (hg x s' hx2).trans (hf s x hx1)

theorem power_rec_soln (g : Globals) :
    ∀ (fuel : Nat) (hdd : Ptr) (level r c : Int) (tr : Bool) (s s' : Buffers),
      power_rec g fuel hdd level r c tr s = some s' → s'.soln = s.soln := by
  intro fuel
  induction fuel with
  | zero =>
    intro hdd level r c tr s s' h
    simp [power_rec] at h
  | succ f ih =>
    intro hdd level r c tr s s' h
    rw [power_rec] at h
    by_cases hz : hdd = g.zero
    · simp only [hz, if_true, Option.some.injEq] at h
      rw [← h]
    · simp only [hz, if_false] at h
      cases hsm : (g.heap hdd).sm with
      | some sm =>
        rw [hsm] at h
        cases sm <;> cases hc : g.compact_sm <;> simp [hc] at h <;> rw [← h]
        · rw [power_rm_eq, apply_updates_soln]
        · rw [power_cmsr_eq, apply_updates_soln]
      | none =>
        rw [hsm] at h
        dsimp only at h
        by_cases hl : level = g.num_levels
        · simp only [hl, if_true, Option.some.injEq] at h
          rw [← h]
          rfl
        · simp only [hl, if_false] at h
          obtain ⟨s1, h1, h2⟩ := Option.bind_eq_some.mp h
          have hs1 : s1.soln = s.soln := by
            split_ifs at h1
            · exact bind_keeps_soln _ _ (fun x y => ih _ _ _ _ _ x y)
                (fun x y => ih _ _ _ _ _ x y) s s1 h1
            · exact bind_keeps_soln _ _ (fun x y => ih _ _ _ _ _ x y)
                (fun x y => ih _ _ _ _ _ x y) s s1 h1
            · cases h1
              rfl
          have hs2 : s'.soln = s1.soln := by
            split_ifs at h2
            · exact bind_keeps_soln _ _ (fun x y => ih _ _ _ _ _ x y)
                (fun x y => ih _ _ _ _ _ x y) s1 s' h2
            · exact bind_keeps_soln _ _ (fun x y => ih _ _ _ _ _ x y)
                (fun x y => ih _ _ _ _ _ x y) s1 s' h2
            · cases h2
              rfl
          exact hs2.trans hs1

theorem matrix_multiply_soln (a : PowerArgs) (s m : Buffers)
    (h : matrix_multiply a s = some m) : m.soln = s.soln := by
  unfold matrix_multiply at h
  rw [power_rec_soln a.g _ _ _ _ _ _ _ _ h, initialise_vector_soln]

theorem while_loop_done (a : PowerArgs) :
    ∀ (r : Nat) (st st' : LoopState), (a.max_iters - st.iters).toNat = r →
      st.done = false → while_loop a st = some st' → st'.done = true →
      ∃ (k : Nat) (prev m : Buffers), bufs_after a st.bufs k = some prev ∧
        matrix_multiply a prev = some m ∧ check_convergence a m false = true ∧
        (∀ j, j < k → converges_at a st.bufs j = false) ∧
        st.iters + (k : Int) < a.max_iters ∧
        st' = { iters := st.iters + (k : Int) + 1, done := true, bufs := swap m } := by
  intro r
  induction r with
  | zero =>
    intro st st' hr hd hloop hd'
    rw [while_loop_stop a st (by omega)] at hloop
    cases hloop
    rw [hd] at hd'
    cases hd'
  | succ r ih =>
    intro st st' hr hd hloop hd'
    have hg : st.done = false ∧ st.iters < a.max_iters := ⟨hd, by omega⟩
    cases hm0 : matrix_multiply a st.bufs with
    | none =>
      rw [while_loop_step_none a st hg hm0] at hloop
      cases hloop
    | some m0 =>
      rw [while_loop_step a st m0 hg hm0] at hloop
      cases hc0 : check_convergence a m0 false with
      | true =>
        rw [hc0, while_loop_stop _ _ (by simp)] at hloop
        refine ⟨0, st.bufs, m0, rfl, hm0, hc0, ?_, by simpa using hg.2, ?_⟩
        · intro j hj
          cases hj
        · cases hloop
          simp
      | false =>
        rw [hc0] at hloop
        obtain ⟨k, prev, m, hprev, hm, hc, hno, hlt, hst⟩ :=
          ih { iters := st.iters + 1, done := false, bufs := swap m0 } st'
            (by show (a.max_iters - (st.iters + 1)).toNat = r; omega) rfl hloop hd'
        refine ⟨k + 1, prev, m, ?_, hm, hc, ?_, ?_, ?_⟩
        · rw [bufs_after_succ, hm0]
          exact hprev
        · intro j hj
          cases j with
          | zero => rw [converges_at_zero a st.bufs m0 hm0, hc0]
          | succ j =>
            rw [converges_at_succ a st.bufs m0 j hm0]
            exact hno j (by omega)
        · push_cast
          have : st.iters + 1 + (k : Int) < a.max_iters := hlt
          omega
        · rw [hst]
          congr 1
          push_cast
          ring

/-! ## The convergence test -/

theorem check_absolute_iff (p : ℚ) (s : Buffers) (k : Nat) (i0 : Int) :
    check_absolute p s k i0 = true ↔
      ∀ i : Int, i0 ≤ i → i < i0 + (k : Int) → |s.soln2 i - s.soln i| ≤ p := by
  induction k generalizing i0 with
  | zero =>
    simp only [check_absolute, true_iff]
    intro i h1 h2
    omega
  | succ k ih =>
    rw [check_absolute]
    by_cases h : |s.soln2 i0 - s.soln i0| > p
    · simp only [h, if_true, Bool.false_eq_true, false_iff]
      intro hall
      exact absurd (hall i0 (le_refl _) (by push_cast; omega)) (not_le.mpr h)
    · rw [if_neg h, ih]
      constructor
      · intro hall i h1 h2
        by_cases hi : i = i0
        · subst hi
          exact not_lt.mp h
        · exact hall i (by omega) (by push_cast at h2; omega)
      · intro hall i h1 h2
        exact hall i (by omega) (by push_cast; omega)

theorem check_relative_eq (p : ℚ) (s : Buffers) (k : Nat) (i0 : Int) :
    check_relative p s k i0 = true ↔
      ∀ i : Int, i0 ≤ i → i < i0 + (k : Int) → relative_test p s i = false := by
  induction k generalizing i0 with
  | zero =>
    simp only [check_relative, true_iff]
    intro i h1 h2
    omega
  | succ k ih =>
    rw [check_relative]
    cases h : relative_test p s i0 with
    | true =>
      simp only [if_true, Bool.false_eq_true, false_iff]
      intro hall
      rw [hall i0 (le_refl _) (by push_cast; omega)] at h
      cases h
    | false =>
      simp only [Bool.false_eq_true, if_false]
      rw [ih]
      constructor
      · intro hall i h1 h2
        by_cases hi : i = i0
        · subst hi
          exact h
        · exact hall i (by omega) (by push_cast at h2; omega)
      · intro hall i h1 h2
        exact hall i (by omega) (by push_cast; omega)

theorem relative_test_nonzero (p : ℚ) (s : Buffers) (i : Int) (hnz : s.soln2 i ≠ 0) :
    relative_test p s i = false ↔ |s.soln2 i - s.soln i| / s.soln2 i ≤ p := by
  unfold relative_test
  rw [if_neg hnz]
  simp

theorem relative_test_zero (p : ℚ) (s : Buffers) (i : Int) (hz : s.soln2 i = 0) :
    relative_test p s i = true ↔ s.soln i ≠ 0 := by
  unfold relative_test
  rw [if_pos hz, hz]
  simp

theorem check_relative_iff (p : ℚ) (s : Buffers) (k : Nat) (i0 : Int)
    (hnz : ∀ i : Int, i0 ≤ i → i < i0 + (k : Int) → s.soln2 i ≠ 0) :
    check_relative p s k i0 = true ↔
      ∀ i : Int, i0 ≤ i → i < i0 + (k : Int) → |s.soln2 i - s.soln i| / s.soln2 i ≤ p := by
  rw [check_relative_eq]
  constructor
  · intro hall i h1 h2
    exact (relative_test_nonzero p s i (hnz i h1 h2)).mp (hall i h1 h2)
  · intro hall i h1 h2
    exact (relative_test_nonzero p s i (hnz i h1 h2)).mpr (hall i h1 h2)

theorem check_convergence_absolute_iff (a : PowerArgs) (s : Buffers) (done : Bool)
    (h : a.term_crit = TERM_CRIT_ABSOLUTE) :
    check_convergence a s done = true ↔
      ∀ i : Int, 0 ≤ i → i < a.n → |s.soln2 i - s.soln i| ≤ a.term_crit_param := by
  unfold check_convergence
  rw [if_pos h, check_absolute_iff]
  constructor
  · intro hall i h0 hn
    exact hall i h0 (by omega)
  · intro hall i h0 hn
    exact hall i h0 (by omega)

/-- C7: in absolute mode the convergence check leaves `done = true` exactly when
`|soln2[i] - soln[i]| <= term_crit_param` for every `i` in `[0, n)`. -/
theorem check_convergence_absolute (a : PowerArgs) (s : Buffers) (done : Bool)
    (h : a.term_crit = TERM_CRIT_ABSOLUTE) :
    check_convergence a s done = true ↔
      ∀ i : Int, 0 ≤ i → i < a.n → |s.soln2 i - s.soln i| ≤ a.term_crit_param :=
  check_convergence_absolute_iff a s done h

/-- Witness of C7 on the 3-state solve and the buffers `exBufs`. -/
theorem check_convergence_absolute_witness :
    check_convergence (exArgs exTolerance 5) exBufs false = true ↔
      ∀ i : Int, 0 ≤ i → i < (exArgs exTolerance 5).n →
        |exBufs.soln2 i - exBufs.soln i| ≤ (exArgs exTolerance 5).term_crit_param :=
  check_convergence_absolute (exArgs exTolerance 5) exBufs false rfl

/-- C8: in relative mode, on buffers whose `soln2[i]` is not zero for `i` in `[0, n)`, the
convergence check leaves `done = true` exactly when
`|soln2[i] - soln[i]| / soln2[i] <= term_crit_param` for every `i` in `[0, n)`; the divisor
is `soln2[i]` itself. -/
theorem check_convergence_relative (a : PowerArgs) (s : Buffers) (done : Bool)
    (h : a.term_crit = TERM_CRIT_RELATIVE)
    (hnz : ∀ i : Int, 0 ≤ i → i < a.n → s.soln2 i ≠ 0) :
    check_convergence a s done = true ↔
      ∀ i : Int, 0 ≤ i → i < a.n →
        |s.soln2 i - s.soln i| / s.soln2 i ≤ a.term_crit_param := by
  have hne : ¬ a.term_crit = TERM_CRIT_ABSOLUTE := by
    rw [h]
    decide
  unfold check_convergence
  rw [if_neg hne, if_pos h,
    check_relative_iff _ _ _ _ fun i h0 hn => hnz i h0 (by omega)]
  constructor
  · intro hall i h0 hn
    exact hall i h0 (by omega)
  · intro hall i h0 hn
    exact hall i h0 (by omega)

/-- Witness of C8 on the 3-state solve in relative mode and the buffers `exBufs`, whose
`soln2` is 3 everywhere. -/
theorem check_convergence_relative_witness :
    check_convergence (exArgsRelative exTolerance 5) exBufs false = true ↔
      ∀ i : Int, 0 ≤ i → i < (exArgsRelative exTolerance 5).n →
        |exBufs.soln2 i - exBufs.soln i| / exBufs.soln2 i ≤
          (exArgsRelative exTolerance 5).term_crit_param :=
  check_convergence_relative (exArgsRelative exTolerance 5) exBufs false rfl
    (by intro i _ _; show (3 : ℚ) ≠ 0; norm_num)

/-! ## The solve -/

theorem multiply_at_some (a : PowerArgs) (s m : Buffers) (k : Nat)
    (h : multiply_at a s k = some m) :
    ∃ prev, bufs_after a s k = some prev ∧ matrix_multiply a prev = some m ∧
      bufs_after a s (k + 1) = some (swap m) := by
  unfold multiply_at at h
  obtain ⟨prev, hp, hm⟩ := Option.bind_eq_some.mp h
  refine ⟨prev, hp, hm, ?_⟩
  rw [bufs_after, hp, Option.some_bind, hm]
  rfl

/-- C3: on a solve that is well set up and has `max_iters >= 1`, the function returns
`0` and sets the error message exactly when none of the first `max_iters` iterate pairs
passes the convergence test, and the message then carries `max_iters`; a vector that is
returned is the new iterate of a pair that passed the test. -/
theorem solve_fails_iff (a : PowerArgs) (init scratch : Vec) (hw : WellSetUp a)
    (hmax : 1 ≤ a.max_iters) :
    ∃ out, Java_hybrid_PrismHybrid_PH_1Power a init scratch = some out ∧
      ((out.result = none ∧ out.message ≠ none) ↔
        ∀ j : Nat, (j : Int) < a.max_iters →
          converges_at a { soln := init, soln2 := scratch } j = false) ∧
      ((∀ j : Nat, (j : Int) < a.max_iters →
          converges_at a { soln := init, soln2 := scratch } j = false) →
        out.message = some (error_message a.max_iters) ∧
        out.message = some ("Iterative method did not converge within " ++
          toString a.max_iters ++
          " iterations.\nConsider using a different numerical method or increase the maximum number of iterations")) ∧
      (∀ v, out.result = some v →
        ∃ (k : Nat) (m : Buffers), (k : Int) < a.max_iters ∧
          multiply_at a { soln := init, soln2 := scratch } k = some m ∧
          check_convergence a m false = true ∧ v = m.soln2) := by
  rcases while_loop_cases a hw (by omega) { soln := init, soln2 := scratch } with
    ⟨k, m, hk, hm, hc, _, hloop⟩ | ⟨hno, b, _, hloop⟩
  · have hconv : converges_at a { soln := init, soln2 := scratch } k = true := by
      unfold converges_at
      rw [hm]
      exact hc
    refine ⟨{ result := some (swap m).soln, message := none }, ?_, ?_, ?_, ?_⟩
    · unfold Java_hybrid_PrismHybrid_PH_1Power
      rw [hloop]
      rfl
    · constructor
      · rintro ⟨h, _⟩
        cases h
      · intro hno
        rw [hno k hk] at hconv
        cases hconv
    · intro hno
      rw [hno k hk] at hconv
      cases hconv
    · intro v hv
      cases hv
      exact ⟨k, m, hk, hm, hc, rfl⟩
  · refine ⟨{ result := none, message := some (error_message a.max_iters) }, ?_, ?_, ?_, ?_⟩
    · unfold Java_hybrid_PrismHybrid_PH_1Power
      rw [hloop]
      rfl
    · constructor
      · intro _
        exact hno
      · intro _
        exact ⟨rfl, by simp⟩
    · intro _
      exact ⟨rfl, rfl⟩
    · intro v hv
      cases hv

/-- C4: on a solve that is well set up and has `max_iters >= 1`, the loop ends with `iters`
equal to the index of the first iteration whose convergence test succeeds, when there is
one among the first `max_iters` (then `done` is true, also when it is iteration
`max_iters`), and with `iters = max_iters` and `done` false otherwise; the buffers are
those after `iters` rounds of multiply and swap. -/
theorem while_loop_iterations (a : PowerArgs) (init scratch : Vec) (hw : WellSetUp a)
    (hmax : 1 ≤ a.max_iters) :
    ∃ st, while_loop a
          { iters := 0, done := false, bufs := { soln := init, soln2 := scratch } } = some st ∧
      bufs_after a { soln := init, soln2 := scratch } st.iters.toNat = some st.bufs ∧
      (∀ k : Nat, (k : Int) < a.max_iters →
        converges_at a { soln := init, soln2 := scratch } k = true →
        (∀ j, j < k → converges_at a { soln := init, soln2 := scratch } j = false) →
          st.iters = (k : Int) + 1 ∧ st.done = true) ∧
      ((∀ j : Nat, (j : Int) < a.max_iters →
          converges_at a { soln := init, soln2 := scratch } j = false) →
        st.iters = a.max_iters ∧ st.done = false) := by
  rcases while_loop_cases a hw (by omega) { soln := init, soln2 := scratch } with
    ⟨k, m, hk, hm, hc, hleast, hloop⟩ | ⟨hno, b, hb, hloop⟩
  · have hconv : converges_at a { soln := init, soln2 := scratch } k = true := by
      unfold converges_at
      rw [hm]
      exact hc
    obtain ⟨prev, _, _, hnext⟩ := multiply_at_some a _ m k hm
    refine ⟨_, hloop, ?_, ?_, ?_⟩
    · have : ((k : Int) + 1).toNat = k + 1 := by omega
      rw [this]
      exact hnext
    · intro k' hk' hconv' hleast'
      have hkk : k' = k := by
        rcases Nat.lt_trichotomy k' k with hlt | heq | hgt
        · rw [hleast k' hlt] at hconv'
          cases hconv'
        · exact heq
        · rw [hleast' k hgt] at hconv
          cases hconv
      subst hkk
      exact ⟨rfl, rfl⟩
    · intro hno
      rw [hno k hk] at hconv
      cases hconv
  · refine ⟨_, hloop, hb, ?_, ?_⟩
    · intro k hk hconv _
      rw [hno k hk] at hconv
      cases hconv
    · intro _
      exact ⟨rfl, rfl⟩

/-- C5: when the solve returns a vector, after `k + 1` iterations say, that vector is the
content of `soln2` right after the multiply of the last iteration, the new iterate
`x_(k+1)`, while the previous iterate `x_k` is what that multiply read from `soln`; the
pair passed the convergence test, and the returned vector is `soln` after the swap. -/
theorem solve_returns_new_iterate (a : PowerArgs) (init scratch : Vec) (out : Outcome)
    (v : Vec) (h : Java_hybrid_PrismHybrid_PH_1Power a init scratch = some out)
    (hv : out.result = some v) :
    ∃ (k : Nat) (prev m : Buffers), (k : Int) < a.max_iters ∧
      bufs_after a { soln := init, soln2 := scratch } k = some prev ∧
      matrix_multiply a prev = some m ∧ m.soln = prev.soln ∧ v = m.soln2 ∧
      check_convergence a m false = true ∧
      bufs_after a { soln := init, soln2 := scratch } (k + 1) =
        some { soln := v, soln2 := prev.soln } := by
  unfold Java_hybrid_PrismHybrid_PH_1Power at h
  cases hloop : while_loop a
      { iters := 0, done := false, bufs := { soln := init, soln2 := scratch } } with
  | none =>
    rw [hloop] at h
    cases h
  | some st =>
    rw [hloop] at h
    dsimp only at h
    cases hd : st.done with
    | false =>
      rw [hd] at h
      simp only [Bool.not_false, if_true, Option.some.injEq] at h
      rw [← h] at hv
      cases hv
    | true =>
      rw [hd] at h
      simp only [Bool.not_true, Bool.false_eq_true, if_false, Option.some.injEq] at h
      rw [← h] at hv
      simp only [Option.some.injEq] at hv
      obtain ⟨k, prev, m, hprev, hm, hc, _, hlt, hst⟩ :=
        while_loop_done a _ _ st rfl rfl hloop hd
      have hsoln := matrix_multiply_soln a prev m hm
      have hvm : v = m.soln2 := by
        rw [← hv, hst]
        rfl
      refine ⟨k, prev, m, by simpa using hlt, hprev, hm, hsoln, hvm, hc, ?_⟩
      rw [bufs_after, hprev, Option.some_bind, hm, hvm, ← hsoln]
      rfl

/-! ## The 3-state chain -/

theorem ex_multiply (tol : ℚ) (max_iters : Int) (s : Buffers) :
    ∃ m, matrix_multiply (exArgs tol max_iters) s = some m ∧ m.soln = s.soln ∧
      m.soln2 0 = s.soln 1 ∧ m.soln2 1 = s.soln 0 / 2 + s.soln 2 / 2 ∧
      m.soln2 2 = s.soln 1 := by
  have h0 := initialise_vector_soln2 (exArgs tol max_iters) s 0 (by decide)
    (by show (0 : Int) < 3; decide)
  have h1 := initialise_vector_soln2 (exArgs tol max_iters) s 1 (by decide)
    (by show (1 : Int) < 3; decide)
  have h2 := initialise_vector_soln2 (exArgs tol max_iters) s 2 (by decide)
    (by show (2 : Int) < 3; decide)
  have hb : (exArgs tol max_iters).b_null = true := rfl
  rw [hb] at h0 h1 h2
  refine ⟨_, matrix_multiply_eq _ (exArgs_wellSetUp tol max_iters) s, ?_, ?_, ?_, ?_⟩
  · rw [apply_updates_soln, initialise_vector_soln]
  · rw [apply_updates_soln2, exArgs_updates, initialise_vector_soln, h0]
    simp [List.filter_cons]
  · rw [apply_updates_soln2, exArgs_updates, initialise_vector_soln, h1]
    simp [List.filter_cons]
    ring
  · rw [apply_updates_soln2, exArgs_updates, initialise_vector_soln, h2]
    simp [List.filter_cons]

theorem ex_step (tol : ℚ) (max_iters : Int) (s : Buffers)
    (hs : |s.soln 1 - (s.soln 0 + s.soln 2) / 2| = 1 / 2) :
    ∃ m, matrix_multiply (exArgs tol max_iters) s = some m ∧
      |m.soln2 1 - m.soln 1| = 1 / 2 ∧
      |(swap m).soln 1 - ((swap m).soln 0 + (swap m).soln 2) / 2| = 1 / 2 := by
  obtain ⟨m, hm, hsoln, h0, h1, h2⟩ := ex_multiply tol max_iters s
  refine ⟨m, hm, ?_, ?_⟩
  · have hneg : m.soln2 1 - m.soln 1 = -(s.soln 1 - (s.soln 0 + s.soln 2) / 2) := by
      rw [h1, hsoln]
      ring
    rw [hneg, abs_neg, hs]
  · show |m.soln2 1 - (m.soln2 0 + m.soln2 2) / 2| = 1 / 2
    have hneg : m.soln2 1 - (m.soln2 0 + m.soln2 2) / 2 =
        -(s.soln 1 - (s.soln 0 + s.soln 2) / 2) := by
      rw [h0, h1, h2]
      ring
    rw [hneg, abs_neg, hs]

theorem ex_bufs_after (tol : ℚ) (max_iters : Int) (s : Buffers)
    (hs : |s.soln 1 - (s.soln 0 + s.soln 2) / 2| = 1 / 2) (k : Nat) :
    ∃ b, bufs_after (exArgs tol max_iters) s k = some b ∧
      |b.soln 1 - (b.soln 0 + b.soln 2) / 2| = 1 / 2 := by
  induction k with
  | zero => exact ⟨s, rfl, hs⟩
  | succ k ih =>
    obtain ⟨b, hb, hinv⟩ := ih
    obtain ⟨m, hm, _, hnext⟩ := ex_step tol max_iters b hinv
    refine ⟨swap m, ?_, hnext⟩
    rw [bufs_after, hb, Option.some_bind, hm]
    rfl

theorem ex_never_converges (tol : ℚ) (htol : tol < 1 / 2) (max_iters : Int) (s : Buffers)
    (hs : |s.soln 1 - (s.soln 0 + s.soln 2) / 2| = 1 / 2) (k : Nat) :
    converges_at (exArgs tol max_iters) s k = false := by
  obtain ⟨b, hb, hinv⟩ := ex_bufs_after tol max_iters s hs k
  obtain ⟨m, hm, hdiff, _⟩ := ex_step tol max_iters b hinv
  have hcv : converges_at (exArgs tol max_iters) s k =
      check_convergence (exArgs tol max_iters) m false := by
    unfold converges_at multiply_at
    rw [hb, Option.some_bind, hm]
  rw [hcv]
  cases hc : check_convergence (exArgs tol max_iters) m false with
  | false => rfl
  | true =>
    have hall := (check_convergence_absolute_iff (exArgs tol max_iters) m false rfl).mp hc
    have h1 := hall 1 (by decide) (by show (1 : Int) < 3; decide)
    rw [hdiff] at h1
    have : (exArgs tol max_iters).term_crit_param = tol := rfl
    rw [this] at h1
    exact absurd h1 (not_le.mpr htol)

theorem exInit_invariant (scratch : Vec) :
    |({ soln := exInit, soln2 := scratch } : Buffers).soln 1 -
        (({ soln := exInit, soln2 := scratch } : Buffers).soln 0 +
          ({ soln := exInit, soln2 := scratch } : Buffers).soln 2) / 2| = 1 / 2 := by
  simp only [exInit]
  norm_num [abs_of_neg]

theorem ex_solve_fails (tol : ℚ) (htol : tol < 1 / 2) (max_iters : Int)
    (hmax : 0 ≤ max_iters) (scratch : Vec) :
    Java_hybrid_PrismHybrid_PH_1Power (exArgs tol max_iters) exInit scratch =
      some { result := none, message := some (error_message max_iters) } := by
  obtain ⟨b, _, hloop⟩ := while_loop_exhausts (exArgs tol max_iters) max_iters.toNat
    { iters := 0, done := false, bufs := { soln := exInit, soln2 := scratch } } rfl
    (by show max_iters = 0 + (max_iters.toNat : Int); omega)
    (fun j _ => ex_never_converges tol htol max_iters _ (exInit_invariant scratch) j)
    (fun j _ => multiply_at_defined _ (exArgs_wellSetUp tol max_iters) _ j)
  unfold Java_hybrid_PrismHybrid_PH_1Power
  rw [hloop]
  rfl

theorem exTolerance_lt : exTolerance < 1 / 2 := by
  norm_num [exTolerance]

theorem ex_solve_succeeds :
    ∃ out v, Java_hybrid_PrismHybrid_PH_1Power (exArgs 2 5) exInit (fun _ => 0) = some out ∧
      out.result = some v := by
  obtain ⟨m, hm, hsoln, h0, h1, h2⟩ :=
    ex_multiply 2 5 { soln := exInit, soln2 := fun _ => 0 }
  have hc : check_convergence (exArgs 2 5) m false = true := by
    apply (check_convergence_absolute_iff (exArgs 2 5) m false rfl).mpr
    intro i hi0 hi3
    have hi3' : i < 3 := hi3
    have hp : (exArgs 2 5).term_crit_param = 2 := rfl
    rw [hp]
    have hcases : i = 0 ∨ i = 1 ∨ i = 2 := by omega
    rcases hcases with rfl | rfl | rfl
    · rw [h0, hsoln]
      norm_num [exInit, abs_le]
    · rw [h1, hsoln]
      norm_num [exInit, abs_le]
    · rw [h2, hsoln]
      norm_num [exInit, abs_le]
  have hloop := while_loop_converges (exArgs 2 5) 0
    { iters := 0, done := false, bufs := { soln := exInit, soln2 := fun _ => 0 } } m rfl
    (by show (0 : Int) + ((0 : Nat) : Int) < 5; decide) hm hc
    (fun j hj => absurd hj (Nat.not_lt_zero j))
  refine ⟨{ result := some (swap m).soln, message := none }, (swap m).soln, ?_, rfl⟩
  unfold Java_hybrid_PrismHybrid_PH_1Power
  rw [hloop]
  rfl

/-- Witness of C3 on the 3-state chain with `max_iters = 1`. -/
theorem solve_fails_iff_witness :
    ∃ out, Java_hybrid_PrismHybrid_PH_1Power (exArgs exTolerance 1) exInit (fun _ => 0) =
        some out ∧
      ((out.result = none ∧ out.message ≠ none) ↔
        ∀ j : Nat, (j : Int) < (exArgs exTolerance 1).max_iters →
          converges_at (exArgs exTolerance 1) { soln := exInit, soln2 := fun _ => 0 } j =
            false) := by
  obtain ⟨out, h1, h2, _⟩ := solve_fails_iff (exArgs exTolerance 1) exInit (fun _ => 0)
    (exArgs_wellSetUp exTolerance 1) (by show (1 : Int) ≤ 1; decide)
  exact ⟨out, h1, h2⟩

/-- Witness of C4 on the 3-state chain with `max_iters = 4`. -/
theorem while_loop_iterations_witness :
    ∃ st, while_loop (exArgs exTolerance 4)
        { iters := 0, done := false, bufs := { soln := exInit, soln2 := fun _ => 0 } } =
          some st ∧
      bufs_after (exArgs exTolerance 4) { soln := exInit, soln2 := fun _ => 0 }
        st.iters.toNat = some st.bufs := by
  obtain ⟨st, h1, h2, _⟩ := while_loop_iterations (exArgs exTolerance 4) exInit (fun _ => 0)
    (exArgs_wellSetUp exTolerance 4) (by show (1 : Int) ≤ 4; decide)
  exact ⟨st, h1, h2⟩

/-- Witness of C5 on the 3-state chain with the loose tolerance 2, for which the first
iteration converges. -/
theorem solve_returns_new_iterate_witness :
    ∃ (v : Vec) (k : Nat) (prev m : Buffers), (k : Int) < (exArgs 2 5).max_iters ∧
      bufs_after (exArgs 2 5) { soln := exInit, soln2 := fun _ => 0 } k = some prev ∧
      matrix_multiply (exArgs 2 5) prev = some m ∧ m.soln = prev.soln ∧ v = m.soln2 ∧
      check_convergence (exArgs 2 5) m false = true := by
  obtain ⟨out, v, hout, hv⟩ := ex_solve_succeeds
  obtain ⟨k, prev, m, h1, h2, h3, h4, h5, h6, _⟩ :=
    solve_returns_new_iterate (exArgs 2 5) exInit (fun _ => 0) out v hout hv
  exact ⟨v, k, prev, m, h1, h2, h3, h4, h5, h6⟩

/-- C6, refuted as stated: on the 3-state chain with initial vector `[1, 0, 0]`, absolute
mode and tolerance `1e-8`, there is no cap on the iterations, content of the fresh `soln2`
and iteration at which the convergence test succeeds. -/
theorem chain_example_never_converges :
    ¬ ∃ (max_iters : Int) (scratch : Vec) (k : Nat),
      converges_at (exArgs exTolerance max_iters) { soln := exInit, soln2 := scratch } k =
        true := by
  rintro ⟨max_iters, scratch, k, hk⟩
  rw [ex_never_converges exTolerance exTolerance_lt max_iters _ (exInit_invariant scratch) k]
    at hk
  cases hk

/-- C6, amended: on the 3-state chain with initial vector `[1, 0, 0]`, absolute mode and
tolerance `1e-8`, the convergence test succeeds at no iteration, and for every
`max_iters >= 1` the solve returns `0` with the message that reports `max_iters`
iterations. -/
theorem chain_example_fails (max_iters : Int) (hmax : 1 ≤ max_iters) (scratch : Vec) :
    (∀ k : Nat, converges_at (exArgs exTolerance max_iters)
        { soln := exInit, soln2 := scratch } k = false) ∧
      Java_hybrid_PrismHybrid_PH_1Power (exArgs exTolerance max_iters) exInit scratch =
        some { result := none, message := some (error_message max_iters) } :=
  ⟨fun k => ex_never_converges exTolerance exTolerance_lt max_iters _
      (exInit_invariant scratch) k,
    ex_solve_fails exTolerance exTolerance_lt max_iters (by omega) scratch⟩

/-- Witness of the amended C6 with `max_iters = 10`. -/
theorem chain_example_fails_witness :
    (∀ k : Nat, converges_at (exArgs exTolerance 10)
        { soln := exInit, soln2 := fun _ => 0 } k = false) ∧
      Java_hybrid_PrismHybrid_PH_1Power (exArgs exTolerance 10) exInit (fun _ => 0) =
        some { result := none, message := some (error_message 10) } :=
  chain_example_fails 10 (by decide) (fun _ => 0)

/-! ## The recursive calls -/

theorem power_rec_succ (g : Globals) (fuel : Nat) (hdd : Ptr) (level r c : Int) (tr : Bool)
    (s : Buffers) (hz : hdd ≠ g.zero) (hsm : (g.heap hdd).sm = none)
    (hl : level ≠ g.num_levels) :
    power_rec g (fuel + 1) hdd level r c tr s =
      run_calls g fuel tr (direct_calls g hdd level r c tr) s := by
  rw [power_rec, direct_calls]
  simp only [hz, if_false, hsm, hl]
  by_cases he : (g.heap hdd).kids_e = g.zero <;>
    by_cases ht : (g.heap hdd).kids_t = g.zero <;>
    cases tr <;>
    simp [he, ht, run_calls, Option.bind_assoc]

theorem power_rec_zero (g : Globals) (fuel : Nat) (level r c : Int) (tr : Bool)
    (s : Buffers) : power_rec g (fuel + 1) g.zero level r c tr s = some s := by
  rw [power_rec]
  simp

theorem direct_calls_zero (g : Globals) (level r c : Int) (tr : Bool) :
    direct_calls g g.zero level r c tr = [] := by
  simp [direct_calls]

theorem direct_calls_branch (g : Globals) (hdd : Ptr) (level r c : Int) (tr : Bool)
    (hz : hdd ≠ g.zero) (hsm : (g.heap hdd).sm = none) (hl : level ≠ g.num_levels)
    (call : Call) (hc : call ∈ direct_calls g hdd level r c tr) :
    call.level = level + 1 ∧
    (call.through_then = false → (g.heap hdd).kids_e ≠ g.zero ∧
      (tr = false → call.row_offset = r ∧
        (call.col_offset = c ∨ call.col_offset = c + (g.heap (g.heap hdd).kids_e).off)) ∧
      (tr = true → call.col_offset = c ∧
        (call.row_offset = r ∨ call.row_offset = r + (g.heap (g.heap hdd).kids_e).off))) ∧
    (call.through_then = true → (g.heap hdd).kids_t ≠ g.zero ∧
      (tr = false → call.row_offset = r + (g.heap hdd).off ∧
        (call.col_offset = c ∨ call.col_offset = c + (g.heap (g.heap hdd).kids_t).off)) ∧
      (tr = true → call.col_offset = c + (g.heap hdd).off ∧
        (call.row_offset = r ∨ call.row_offset = r + (g.heap (g.heap hdd).kids_t).off))) := by
  rw [direct_calls] at hc
  simp only [hz, if_false, hsm, hl] at hc
  by_cases he : (g.heap hdd).kids_e = g.zero <;>
    by_cases ht : (g.heap hdd).kids_t = g.zero <;>
    cases tr <;>
    simp [he, ht] at hc <;>
    (try rcases hc with rfl | rfl | rfl | rfl) <;>
    simp [he, ht]

/-- C12: `power_rec` on the zero terminal returns at once, leaving `soln` and `soln2` as
they are and making no recursive call, whatever the level, offsets, transpose flag and
content of the node (a block, or the bottom level reached); an internal branch makes no
call through a child that is the zero terminal, and with both children zero it makes no
call and leaves the buffers as they are. -/
theorem zero_pruning (g : Globals) (fuel : Nat) (level r c : Int) (tr : Bool) (s : Buffers) :
    (power_rec g (fuel + 1) g.zero level r c tr s = some s ∧
      direct_calls g g.zero level r c tr = []) ∧
    ∀ hdd : Ptr, hdd ≠ g.zero → (g.heap hdd).sm = none → level ≠ g.num_levels →
      power_rec g (fuel + 1) hdd level r c tr s =
          run_calls g fuel tr (direct_calls g hdd level r c tr) s ∧
      ((g.heap hdd).kids_e = g.zero →
        ∀ call ∈ direct_calls g hdd level r c tr, call.through_then = true) ∧
      ((g.heap hdd).kids_t = g.zero →
        ∀ call ∈ direct_calls g hdd level r c tr, call.through_then = false) ∧
      ((g.heap hdd).kids_e = g.zero → (g.heap hdd).kids_t = g.zero →
        direct_calls g hdd level r c tr = [] ∧
        power_rec g (fuel + 1) hdd level r c tr s = some s) := by
  refine ⟨⟨power_rec_zero g fuel level r c tr s, direct_calls_zero g level r c tr⟩, ?_⟩
  intro hdd hz hsm hl
  have hlink := power_rec_succ g fuel hdd level r c tr s hz hsm hl
  refine ⟨hlink, ?_, ?_, ?_⟩
  · intro he call hc
    have h := (direct_calls_branch g hdd level r c tr hz hsm hl call hc).2.1
    cases hb : call.through_then
    · exact absurd he (h hb).1
    · rfl
  · intro ht call hc
    have h := (direct_calls_branch g hdd level r c tr hz hsm hl call hc).2.2
    cases hb : call.through_then
    · rfl
    · exact absurd ht (h hb).1
  · intro he ht
    have hnil : direct_calls g hdd level r c tr = [] := by
      rw [direct_calls]
      simp [hz, hsm, hl, he, ht]
    refine ⟨hnil, ?_⟩
    rw [hlink, hnil]
    rfl

/-- Witness of C12: the zero terminal of `exZeroGlobals` carries a block and is visited
at the bottom level, and still nothing happens. -/
theorem zero_pruning_witness :
    power_rec exZeroGlobals 1 exZeroGlobals.zero 1 5 7 true exBufs = some exBufs ∧
      direct_calls exZeroGlobals exZeroGlobals.zero 1 5 7 true = [] :=
  (zero_pruning exZeroGlobals 0 1 5 7 true exBufs).1

/-- C16: on a node that is not the zero terminal and carries a block, `power_rec` does
what the kernel chosen by `compact_sm` does on that block at the current offsets
(`power_rm` when it is false, `power_cmsr` when it is true), at every level and for either
transpose flag; it makes no recursive call, and its result is the same for any other
level and flag and in any other memory that agrees on the `sm` field of the node. -/
theorem block_node_dispatch (g : Globals) (fuel : Nat) (hdd : Ptr) (level r c : Int)
    (tr : Bool) (s : Buffers) (hz : hdd ≠ g.zero) :
    (∀ rmsm, (g.heap hdd).sm = some (.rm rmsm) → g.compact_sm = false →
      power_rec g (fuel + 1) hdd level r c tr s = some (power_rm rmsm r c s)) ∧
    (∀ cmsrsm, (g.heap hdd).sm = some (.cmsr cmsrsm) → g.compact_sm = true →
      power_rec g (fuel + 1) hdd level r c tr s =
        some (power_cmsr g.sm_dist g.sm_dist_shift g.sm_dist_mask cmsrsm r c s)) ∧
    (∀ sm, (g.heap hdd).sm = some sm →
      direct_calls g hdd level r c tr = [] ∧
      ∀ (heap2 : Ptr → HDDNode) (num_levels2 level2 : Int) (tr2 : Bool),
        (heap2 hdd).sm = some sm →
        power_rec { g with heap := heap2, num_levels := num_levels2 } (fuel + 1) hdd level2
            r c tr2 s =
          power_rec g (fuel + 1) hdd level r c tr s) := by
  refine ⟨?_, ?_, ?_⟩
  · intro rmsm hsm hc
    rw [power_rec]
    simp [hz, hsm, hc]
  · intro cmsrsm hsm hc
    rw [power_rec]
    simp [hz, hsm, hc]
  · intro sm hsm
    refine ⟨?_, ?_⟩
    · rw [direct_calls]
      simp [hz, hsm]
    · intro heap2 num_levels2 level2 tr2 hsm2
      rw [power_rec, power_rec]
      simp only [hz, if_false, hsm, hsm2]

/-- Witness of C16 on the root of `exBlockGlobals`, which carries the plain block `exRM`,
at the bottom level and transposed. -/
theorem block_node_dispatch_witness :
    power_rec exBlockGlobals 1 1 1 5 7 true exBufs = some (power_rm exRM 5 7 exBufs) :=
  (block_node_dispatch exBlockGlobals 0 1 1 5 7 true exBufs (by decide)).1 exRM rfl rfl

/-- C15, refuted as stated: at the root of `exOffGlobals` (`off = 5`, `then` child with
`off = 11`), run from offsets 0, 0 and not transposed, the calls through the `then` child
have row offset 5, the `off` of the root itself, which is neither 0 nor the `off` of the
`then` child. -/
theorem then_calls_use_parent_off :
    direct_calls exOffGlobals 1 0 0 0 false =
        [{ through_then := false, hdd := 4, level := 1, row_offset := 0, col_offset := 0 },
         { through_then := false, hdd := 4, level := 1, row_offset := 0, col_offset := 7 },
         { through_then := true, hdd := 4, level := 1, row_offset := 5, col_offset := 0 },
         { through_then := true, hdd := 4, level := 1, row_offset := 5, col_offset := 11 }] ∧
      ¬ ∀ call ∈ direct_calls exOffGlobals 1 0 0 0 false, call.through_then = true →
        (call.row_offset = 0 ∨
            call.row_offset = 0 + (exOffGlobals.heap (exOffGlobals.heap 1).kids_t).off) ∧
          (call.col_offset = 0 ∨
            call.col_offset = 0 + (exOffGlobals.heap (exOffGlobals.heap 1).kids_t).off) := by
  have hlist : direct_calls exOffGlobals 1 0 0 0 false =
      [{ through_then := false, hdd := 4, level := 1, row_offset := 0, col_offset := 0 },
       { through_then := false, hdd := 4, level := 1, row_offset := 0, col_offset := 7 },
       { through_then := true, hdd := 4, level := 1, row_offset := 5, col_offset := 0 },
       { through_then := true, hdd := 4, level := 1, row_offset := 5, col_offset := 11 }] := by
    simp [direct_calls, exOffGlobals, exNode]
  refine ⟨hlist, ?_⟩
  intro h
  have h5 := h { through_then := true, hdd := 4, level := 1, row_offset := 5, col_offset := 0 }
    (by rw [hlist]; simp) rfl
  simp [exOffGlobals, exNode] at h5

/-- C15, amended: in the internal-branch case every recursive call goes one level down,
and `power_rec` is the run of these calls in order.  A call through the `else` child `e`
adds at most `e->off`, to the column offset (to the row offset when transposed).  A call
through the `then` child `t` adds `hdd->off`, the `off` of the branch node itself, to the
row offset (to the column offset when transposed), and at most `t->off` to the other
offset. -/
theorem branch_call_offsets (g : Globals) (fuel : Nat) (hdd : Ptr) (level r c : Int)
    (tr : Bool) (s : Buffers) (hz : hdd ≠ g.zero) (hsm : (g.heap hdd).sm = none)
    (hl : level ≠ g.num_levels) :
    power_rec g (fuel + 1) hdd level r c tr s =
        run_calls g fuel tr (direct_calls g hdd level r c tr) s ∧
      ∀ call ∈ direct_calls g hdd level r c tr,
        call.level = level + 1 ∧
        (call.through_then = false →
          (tr = false → call.row_offset = r ∧
            (call.col_offset = c ∨
              call.col_offset = c + (g.heap (g.heap hdd).kids_e).off)) ∧
          (tr = true → call.col_offset = c ∧
            (call.row_offset = r ∨
              call.row_offset = r + (g.heap (g.heap hdd).kids_e).off))) ∧
        (call.through_then = true →
          (tr = false → call.row_offset = r + (g.heap hdd).off ∧
            (call.col_offset = c ∨
              call.col_offset = c + (g.heap (g.heap hdd).kids_t).off)) ∧
          (tr = true → call.col_offset = c + (g.heap hdd).off ∧
            (call.row_offset = r ∨
              call.row_offset = r + (g.heap (g.heap hdd).kids_t).off))) := by
  refine ⟨power_rec_succ g fuel hdd level r c tr s hz hsm hl, ?_⟩
  intro call hc
  obtain ⟨h1, h2, h3⟩ := direct_calls_branch g hdd level r c tr hz hsm hl call hc
  exact ⟨h1, fun hb => (h2 hb).2, fun hb => (h3 hb).2⟩

/-- Witness of the amended C15 at the root of `exOffGlobals`. -/
theorem branch_call_offsets_witness :
    power_rec exOffGlobals 2 1 0 0 0 false exBufs =
      run_calls exOffGlobals 1 false (direct_calls exOffGlobals 1 0 0 0 false) exBufs :=
  (branch_call_offsets exOffGlobals 1 1 0 0 0 false exBufs (by decide) rfl (by decide)).1

theorem direct_calls_level (g : Globals) (hdd : Ptr) (level r c : Int) (tr : Bool)
    (call : Call) (hc : call ∈ direct_calls g hdd level r c tr) :
    call.level = level + 1 ∧ level ≠ g.num_levels := by
  by_cases hz : hdd = g.zero
  · rw [direct_calls] at hc
    simp [hz] at hc
  · cases hsm : (g.heap hdd).sm with
    | some sm =>
      rw [direct_calls] at hc
      simp [hz, hsm] at hc
    | none =>
      by_cases hl : level = g.num_levels
      · rw [direct_calls] at hc
        simp [hz, hsm, hl] at hc
      · exact ⟨(direct_calls_branch g hdd level r c tr hz hsm hl call hc).1, hl⟩

theorem direct_calls_bottom (g : Globals) (hdd : Ptr) (r c : Int) (tr : Bool) :
    direct_calls g hdd g.num_levels r c tr = [] := by
  rw [direct_calls]
  split
  · rfl
  · split <;> simp

theorem all_calls_levels (g : Globals) (tr : Bool) (depth : Nat) :
    ∀ (hdd : Ptr) (level r c : Int), level ≤ g.num_levels →
      ∀ call ∈ all_calls g tr depth hdd level r c,
        level + 1 ≤ call.level ∧ call.level ≤ g.num_levels := by
  induction depth with
  | zero =>
    intro hdd level r c _ call hc
    simp [all_calls] at hc
  | succ depth ih =>
    intro hdd level r c hle call hc
    rw [all_calls, List.mem_flatMap] at hc
    obtain ⟨first, hfirst, hin⟩ := hc
    obtain ⟨hlev, hne⟩ := direct_calls_level g hdd level r c tr first hfirst
    have hle1 : first.level ≤ g.num_levels := by omega
    rcases List.mem_cons.mp hin with heq | hsub
    · rw [heq]
      omega
    · have := ih first.hdd first.level first.row_offset first.col_offset hle1 call hsub
      omega

theorem flatMap_congr_mem {α β : Type} (l : List α) (f h : α → List β)
    (hfh : ∀ x ∈ l, f x = h x) : l.flatMap f = l.flatMap h := by
  induction l with
  | nil => rfl
  | cons x l ih =>
    rw [List.flatMap_cons, List.flatMap_cons, hfh x (List.mem_cons_self _ _),
      ih fun y hy => hfh y (List.mem_cons_of_mem _ hy)]

theorem all_calls_stable (g : Globals) (tr : Bool) (d : Nat) :
    ∀ (k : Nat) (hdd : Ptr) (level r c : Int), level + (d : Int) = g.num_levels →
      all_calls g tr (d + k) hdd level r c = all_calls g tr d hdd level r c := by
  induction d with
  | zero =>
    intro k hdd level r c hl
    have hlev : level = g.num_levels := by simpa using hl
    cases k with
    | zero => rfl
    | succ k =>
      rw [Nat.zero_add, hlev]
      simp [all_calls, direct_calls_bottom]
  | succ d ih =>
    intro k hdd level r c hl
    rw [show d + 1 + k = (d + k) + 1 by omega, all_calls, all_calls]
    apply flatMap_congr_mem
    intro call hc
    have hlev := (direct_calls_level g hdd level r c tr call hc).1
    rw [ih k call.hdd call.level call.row_offset call.col_offset
      (by rw [hlev]; push_cast at hl; omega)]

/-- C17: with `num_levels = L >= 0`, every recursive call below `power_rec(root, 0, 0, 0,
transpose)` has a level between 1 and `L`; each call is one level below its caller and no
call is made from level `L`, so the calls nested deeper than `L` are none and the set of
calls is finite; on a structure whose blocks are of the announced kind the function
returns with recursion depth `L + 1`, the outer invocation and at most `L` nested ones. -/
theorem power_rec_depth (g : Globals) (L : Nat) (root : Ptr) (tr : Bool)
    (hL : g.num_levels = (L : Int)) :
    (∀ depth : Nat, ∀ call ∈ all_calls g tr depth root 0 0 0,
      1 ≤ call.level ∧ call.level ≤ (L : Int)) ∧
    (∀ k : Nat, all_calls g tr (L + k) root 0 0 0 = all_calls g tr L root 0 0 0) ∧
    (∀ (hdd : Ptr) (level r c : Int), ∀ call ∈ direct_calls g hdd level r c tr,
      call.level = level + 1) ∧
    (∀ (hdd : Ptr) (r c : Int), direct_calls g hdd (L : Int) r c tr = []) ∧
    (BlocksMatch g → ∀ s : Buffers, ∃ s', power_rec g (L + 1) root 0 0 0 tr s = some s') := by
  refine ⟨?_, ?_, ?_, ?_, ?_⟩
  · intro depth call hc
    have h := all_calls_levels g tr depth root 0 0 0 (by omega) call hc
    omega
  · intro k
    exact all_calls_stable g tr L k root 0 0 0 (by omega)
  · intro hdd level r c call hc
    exact (direct_calls_level g hdd level r c tr call hc).1
  · intro hdd r c
    rw [← hL]
    exact direct_calls_bottom g hdd r c tr
  · intro hm s
    exact ⟨_, power_rec_eq_updates g hm tr L (L + 1) root 0 0 0 s (by omega) (by omega)⟩

/-- Witness of C17 on the two-level diagram of the 3-state chain. -/
theorem power_rec_depth_witness :
    exGlobals.num_levels = ((2 : Nat) : Int) ∧
      all_calls exGlobals false (2 + 5) 1 0 0 0 = all_calls exGlobals false 2 1 0 0 0 :=
  ⟨rfl, (power_rec_depth exGlobals 2 1 false rfl).2.1 5⟩

/-! ## Transposition -/

theorem hybrid_updates_transpose (g : Globals) (hfree : ∀ p, (g.heap p).sm = none)
    (d : Nat) : ∀ (hdd : Ptr) (r c : Int),
      hybrid_updates g true d hdd r c =
        (hybrid_updates g false d hdd c r).map transpose_update := by
  induction d with
  | zero =>
    intro hdd r c
    by_cases hz : hdd = g.zero <;> simp [hybrid_updates, hfree, hz, transpose_update]
  | succ d ih =>
    intro hdd r c
    by_cases hz : hdd = g.zero
    · simp [hybrid_updates, hz]
    · by_cases he : (g.heap hdd).kids_e = g.zero <;>
        by_cases ht : (g.heap hdd).kids_t = g.zero <;>
        simp [hybrid_updates, hfree, hz, he, ht, ih]

theorem exRM_updates :
    rm_updates exRM 0 0 = [⟨0, 0, 1 / 2⟩, ⟨0, 1, 1 / 4⟩, ⟨1, 1, 1 / 2⟩] := by
  rfl

/-- C11, refuted as stated: the root of `exBlockGlobals` carries the block
`[[1/2, 1/4], [0, 1/2]]`; the transposed run does exactly what the run that is not
transposed does, and that is not what the transposed matrix would do: with
`soln = (1, 2, ...)` the entry `soln2[0]` differs. -/
theorem transpose_ignored_by_blocks :
    power_rec exBlockGlobals 1 1 0 0 0 true exBufs =
        power_rec exBlockGlobals 1 1 0 0 0 false exBufs ∧
      power_rec exBlockGlobals 1 1 0 0 0 false exBufs =
        some (apply_updates (rm_updates exRM 0 0) exBufs) ∧
      (apply_updates (rm_updates exRM 0 0) exBufs).soln2 0 ≠
        (apply_updates ((rm_updates exRM 0 0).map transpose_update) exBufs).soln2 0 := by
  have hrun : ∀ tr, power_rec exBlockGlobals 1 1 0 0 0 tr exBufs =
      some (apply_updates (rm_updates exRM 0 0) exBufs) := by
    intro tr
    rw [power_rec]
    simp [exBlockGlobals, power_rm_eq]
  refine ⟨by rw [hrun true, hrun false], hrun false, ?_⟩
  rw [apply_updates_soln2, apply_updates_soln2, exRM_updates]
  simp [List.filter_cons, transpose_update, exBufs]

/-- C11, amended: on a structure without blocks, with `d` levels below the node, the
transposed run from offsets `(r, c)` performs the update `soln2[i] += soln[j] * v` exactly
when the run that is not transposed, from offsets `(c, r)`, performs
`soln2[j] += soln[i] * v`, and in the same order. -/
theorem transpose_block_free (g : Globals) (d fuel : Nat) (hdd : Ptr) (level r c : Int)
    (s : Buffers) (hfree : ∀ p, (g.heap p).sm = none)
    (hlev : level + (d : Int) = g.num_levels) (hfuel : d < fuel) :
    power_rec g fuel hdd level c r false s =
        some (apply_updates (paths g d hdd c r) s) ∧
      power_rec g fuel hdd level r c true s =
        some (apply_updates ((paths g d hdd c r).map transpose_update) s) := by
  have hm := blocksMatch_of_block_free g hfree
  refine ⟨?_, ?_⟩
  · rw [power_rec_eq_updates g hm false d fuel hdd level c r s hlev hfuel,
      hybrid_updates_block_free g hfree]
  · rw [power_rec_eq_updates g hm true d fuel hdd level r c s hlev hfuel,
      hybrid_updates_transpose g hfree, hybrid_updates_block_free g hfree]

/-- Witness of the amended C11 on the diagram of the 3-state chain. -/
theorem transpose_block_free_witness :
    power_rec exGlobals 3 1 0 0 0 false exBufs =
        some (apply_updates (paths exGlobals 2 1 0 0) exBufs) ∧
      power_rec exGlobals 3 1 0 0 0 true exBufs =
        some (apply_updates ((paths exGlobals 2 1 0 0).map transpose_update) exBufs) :=
  transpose_block_free exGlobals 2 3 1 0 0 0 exBufs
    (by intro p; show (exHeap p).sm = none; unfold exHeap; split <;> rfl) rfl (by decide)

/-! ## The two encodings of the rows -/

theorem starts_eq_count_before (n : Int) (row_starts : Int → Int) (row_counts : Int → Nat)
    (h0 : row_starts 0 = 0)
    (hs : ∀ i : Nat, (i : Int) < n →
      row_starts ((i : Int) + 1) = row_starts (i : Int) + (row_counts (i : Int) : Int)) :
    ∀ i : Nat, (i : Int) ≤ n → row_starts (i : Int) = count_before row_counts i := by
  intro i
  induction i with
  | zero =>
    intro _
    simpa [count_before] using h0
  | succ i ih =>
    intro hi
    have hlt : (i : Int) < n := by push_cast at hi; omega
    rw [count_before, ← ih (by omega)]
    push_cast
    exact hs i hlt

theorem row_ranges_agree (n : Int) (row_starts : Int → Int) (row_counts : Int → Nat)
    (h0 : row_starts 0 = 0)
    (hs : ∀ i : Nat, (i : Int) < n →
      row_starts ((i : Int) + 1) = row_starts (i : Int) + (row_counts (i : Int) : Int))
    (i : Nat) (hi : (i : Int) < n) :
    row_lo false row_starts row_counts i = row_lo true row_starts row_counts i ∧
      row_hi false row_starts row_counts i = row_hi true row_starts row_counts i := by
  have hall := starts_eq_count_before n row_starts row_counts h0 hs
  refine ⟨?_, ?_⟩
  · simpa [row_lo] using hall i (by omega)
  · have := hall (i + 1) (by push_cast; omega)
    simpa [row_hi] using this

/-- C13: when `row_starts[0] = 0` and `row_starts[i+1] = row_starts[i] + row_counts[i]` for
every row `i` of a block, the entry range of each row is the same under both encodings, and
each kernel leaves the same buffers with `use_counts = false` as with `use_counts = true`;
this holds for `power_rm` and for `power_cmsr`. -/
theorem row_encodings_agree (rmsm : RMSparseMatrix) (cmsrsm : CMSRSparseMatrix)
    (sm_dist : Int → ℚ) (sm_dist_shift sm_dist_mask : Nat) (row_offset col_offset : Int)
    (s : Buffers)
    (h0 : rmsm.row_starts 0 = 0)
    (hs : ∀ i : Nat, (i : Int) < rmsm.n →
      rmsm.row_starts ((i : Int) + 1) =
        rmsm.row_starts (i : Int) + (rmsm.row_counts (i : Int) : Int))
    (h0c : cmsrsm.row_starts 0 = 0)
    (hsc : ∀ i : Nat, (i : Int) < cmsrsm.n →
      cmsrsm.row_starts ((i : Int) + 1) =
        cmsrsm.row_starts (i : Int) + (cmsrsm.row_counts (i : Int) : Int)) :
    (∀ i : Nat, (i : Int) < rmsm.n →
      row_lo false rmsm.row_starts rmsm.row_counts i =
          row_lo true rmsm.row_starts rmsm.row_counts i ∧
        row_hi false rmsm.row_starts rmsm.row_counts i =
          row_hi true rmsm.row_starts rmsm.row_counts i) ∧
    power_rm { rmsm with use_counts := false } row_offset col_offset s =
      power_rm { rmsm with use_counts := true } row_offset col_offset s ∧
    (∀ i : Nat, (i : Int) < cmsrsm.n →
      row_lo false cmsrsm.row_starts cmsrsm.row_counts i =
          row_lo true cmsrsm.row_starts cmsrsm.row_counts i ∧
        row_hi false cmsrsm.row_starts cmsrsm.row_counts i =
          row_hi true cmsrsm.row_starts cmsrsm.row_counts i) ∧
    power_cmsr sm_dist sm_dist_shift sm_dist_mask { cmsrsm with use_counts := false }
        row_offset col_offset s =
      power_cmsr sm_dist sm_dist_shift sm_dist_mask { cmsrsm with use_counts := true }
        row_offset col_offset s := by
  have hr := row_ranges_agree rmsm.n rmsm.row_starts rmsm.row_counts h0 hs
  have hc := row_ranges_agree cmsrsm.n cmsrsm.row_starts cmsrsm.row_counts h0c hsc
  refine ⟨hr, ?_, hc, ?_⟩
  · rw [power_rm_eq, power_rm_eq, rm_updates, rm_updates]
    congr 1
    apply flatMap_range_congr
    intro t ht
    have hti : (t : Int) < rmsm.n := by
      have : t < rmsm.n.toNat := ht
      omega
    show (index_range (row_lo false rmsm.row_starts rmsm.row_counts t)
        (row_hi false rmsm.row_starts rmsm.row_counts t)).map _ =
      (index_range (row_lo true rmsm.row_starts rmsm.row_counts t)
        (row_hi true rmsm.row_starts rmsm.row_counts t)).map _
    rw [(hr t hti).1, (hr t hti).2]
  · rw [power_cmsr_eq, power_cmsr_eq, cmsr_updates, cmsr_updates]
    congr 1
    apply flatMap_range_congr
    intro t ht
    have hti : (t : Int) < cmsrsm.n := by
      have : t < cmsrsm.n.toNat := ht
      omega
    show (index_range (row_lo false cmsrsm.row_starts cmsrsm.row_counts t)
        (row_hi false cmsrsm.row_starts cmsrsm.row_counts t)).map _ =
      (index_range (row_lo true cmsrsm.row_starts cmsrsm.row_counts t)
        (row_hi true cmsrsm.row_starts cmsrsm.row_counts t)).map _
    rw [(hc t hti).1, (hc t hti).2]

/-- Witness of C13 on the blocks `exRM` and `exCMSR`, whose row starts `0, 2, 3` are the
running sums of the row counts `2, 1`. -/
theorem row_encodings_agree_witness :
    power_rm { exRM with use_counts := false } 5 7 exBufs =
        power_rm { exRM with use_counts := true } 5 7 exBufs ∧
      power_cmsr exDist 1 1 { exCMSR with use_counts := false } 5 7 exBufs =
        power_cmsr exDist 1 1 { exCMSR with use_counts := true } 5 7 exBufs := by
  have hstarts : ∀ i : Nat, (i : Int) < 2 →
      (if (i : Int) + 1 = 0 then (0 : Int) else if (i : Int) + 1 = 1 then 2 else 3) =
        (if (i : Int) = 0 then (0 : Int) else if (i : Int) = 1 then 2 else 3) +
          ((if (i : Int) = 0 then 2 else 1 : Nat) : Int) := by
    intro i hi
    have hcases : i = 0 ∨ i = 1 := by omega
    rcases hcases with rfl | rfl <;> simp
  have h := row_encodings_agree exRM exCMSR exDist 1 1 5 7 exBufs rfl hstarts rfl hstarts
  exact ⟨h.2.1, h.2.2.2⟩

/-! ## Rows written by sibling subtrees -/

theorem block_updates_rows (g : Globals) (sm : SparseMatrix) (r c : Int) (u : Update)
    (hu : u ∈ block_updates g sm r c) : r ≤ u.row ∧ u.row < r + block_rows sm := by
  cases sm with
  | rm rmsm =>
    simp only [block_updates, rm_updates, List.mem_flatMap, List.mem_range, List.mem_map] at hu
    obtain ⟨t, ht, j, _, rfl⟩ := hu
    simp only [block_rows]
    omega
  | cmsr cmsrsm =>
    simp only [block_updates, cmsr_updates, List.mem_flatMap, List.mem_range,
      List.mem_map] at hu
    obtain ⟨t, ht, j, _, rfl⟩ := hu
    simp only [block_rows]
    omega

theorem rows_within_bounds (g : Globals) (d : Nat) :
    ∀ (hdd : Ptr) (n r c : Int), RowsWithin g d hdd n →
      ∀ u ∈ hybrid_updates g false d hdd r c, r ≤ u.row ∧ u.row < r + n := by
  induction d with
  | zero =>
    intro hdd n r c hw u hu
    rw [hybrid_updates] at hu
    rw [RowsWithin] at hw
    by_cases hz : hdd = g.zero
    · simp [hz] at hu
    · simp only [hz, if_false, false_or] at hu hw
      cases hsm : (g.heap hdd).sm with
      | some sm =>
        rw [hsm] at hu hw
        have := block_updates_rows g sm r c u hu
        have hle : block_rows sm ≤ n := hw
        omega
      | none =>
        rw [hsm] at hu hw
        have hle : 1 ≤ n := hw
        simp only [List.mem_singleton] at hu
        rw [hu]
        show r ≤ r ∧ r < r + n
        omega
  | succ d ih =>
    intro hdd n r c hw u hu
    rw [hybrid_updates] at hu
    rw [RowsWithin] at hw
    by_cases hz : hdd = g.zero
    · simp [hz] at hu
    · simp only [hz, if_false, false_or] at hu hw
      cases hsm : (g.heap hdd).sm with
      | some sm =>
        rw [hsm] at hu hw
        have := block_updates_rows g sm r c u hu
        have hle : block_rows sm ≤ n := hw
        omega
      | none =>
        rw [hsm] at hu hw
        obtain ⟨hoff0, hoffn, hwe, hwt⟩ := hw
        simp only [Bool.false_eq_true, if_false, List.mem_append] at hu
        rcases hu with hu | hu
        · by_cases he : (g.heap hdd).kids_e = g.zero
          · simp [he] at hu
          · simp only [he, if_false, List.mem_append] at hu
            rcases hu with hu | hu
            · have := ih _ _ _ _ (hwe he).1 u hu
              omega
            · have := ih _ _ _ _ (hwe he).2 u hu
              omega
        · by_cases ht : (g.heap hdd).kids_t = g.zero
          · simp [ht] at hu
          · simp only [ht, if_false, List.mem_append] at hu
            rcases hu with hu | hu
            · have := ih _ _ _ _ (hwt ht).1 u hu
              omega
            · have := ih _ _ _ _ (hwt ht).2 u hu
              omega

theorem direct_calls_untransposed (g : Globals) (hdd : Ptr) (level r c : Int)
    (hz : hdd ≠ g.zero) (hsm : (g.heap hdd).sm = none) (hl : level ≠ g.num_levels)
    (call : Call) (hc : call ∈ direct_calls g hdd level r c false) :
    (call.through_then = false ∧ (g.heap hdd).kids_e ≠ g.zero ∧ call.row_offset = r ∧
        (call.hdd = (g.heap (g.heap hdd).kids_e).kids_e ∨
          call.hdd = (g.heap (g.heap hdd).kids_e).kids_t)) ∨
      (call.through_then = true ∧ (g.heap hdd).kids_t ≠ g.zero ∧
        call.row_offset = r + (g.heap hdd).off ∧
        (call.hdd = (g.heap (g.heap hdd).kids_t).kids_e ∨
          call.hdd = (g.heap (g.heap hdd).kids_t).kids_t)) := by
  rw [direct_calls] at hc
  simp only [hz, if_false, hsm, hl] at hc
  by_cases he : (g.heap hdd).kids_e = g.zero <;>
    by_cases ht : (g.heap hdd).kids_t = g.zero <;>
    simp [he, ht] at hc <;>
    (try rcases hc with rfl | rfl | rfl | rfl) <;>
    simp [he, ht]

theorem exGlobals_rows : RowsWithin exGlobals 2 1 3 := by
  simp [RowsWithin, exGlobals, exHeap, exNode]

/-- C18, refuted as stated: on the diagram of the 3-state chain, whose `off` fields are
well formed, the transposed run from the root makes a call through the `else` child (node
4 at offsets 0, 0) and a call through the `then` child (node 6 at offsets 0, 2) that both
write row 1 of `soln2`. -/
theorem sibling_rows_overlap_transposed :
    RowsWithin exGlobals 2 1 3 ∧
      ¬ ∀ ce ∈ direct_calls exGlobals 1 0 0 0 true,
        ∀ ct ∈ direct_calls exGlobals 1 0 0 0 true,
          ce.through_then = false → ct.through_then = true →
          ∀ u ∈ hybrid_updates exGlobals true 1 ce.hdd ce.row_offset ce.col_offset,
          ∀ v ∈ hybrid_updates exGlobals true 1 ct.hdd ct.row_offset ct.col_offset,
            u.row ≠ v.row := by
  refine ⟨exGlobals_rows, ?_⟩
  intro h
  exact h { through_then := false, hdd := 4, level := 1, row_offset := 0, col_offset := 0 }
    (by simp [direct_calls, exGlobals, exHeap, exNode])
    { through_then := true, hdd := 6, level := 1, row_offset := 0, col_offset := 2 }
    (by simp [direct_calls, exGlobals, exHeap, exNode]) rfl rfl
    ⟨1, 0, 1⟩ (by simp [hybrid_updates, exGlobals, exHeap, exNode])
    ⟨1, 2, 1⟩ (by simp [hybrid_updates, exGlobals, exHeap, exNode]) rfl

/-- C18, amended: at an internal branch with well-formed `off` fields below it, in a run
that is not transposed, every row of `soln2` written below a call through the `else` child
lies under `row_offset + hdd->off` and every row written below a call through the `then`
child lies at or above it, so the two sets of rows are disjoint; what a call writes is the
rows of the updates of its subtree. -/
theorem sibling_rows_disjoint (g : Globals) (d fuel : Nat) (hdd : Ptr) (level r c n : Int)
    (hm : BlocksMatch g) (hz : hdd ≠ g.zero) (hsm : (g.heap hdd).sm = none)
    (hlev : level + 1 + (d : Int) = g.num_levels) (hfuel : d < fuel)
    (hw : RowsWithin g (d + 1) hdd n) :
    ∀ ce ∈ direct_calls g hdd level r c false, ∀ ct ∈ direct_calls g hdd level r c false,
      ce.through_then = false → ct.through_then = true →
      (∀ s, power_rec g fuel ce.hdd ce.level ce.row_offset ce.col_offset false s =
        some (apply_updates
          (hybrid_updates g false d ce.hdd ce.row_offset ce.col_offset) s)) ∧
      (∀ s, power_rec g fuel ct.hdd ct.level ct.row_offset ct.col_offset false s =
        some (apply_updates
          (hybrid_updates g false d ct.hdd ct.row_offset ct.col_offset) s)) ∧
      ∀ u ∈ hybrid_updates g false d ce.hdd ce.row_offset ce.col_offset,
      ∀ v ∈ hybrid_updates g false d ct.hdd ct.row_offset ct.col_offset,
        u.row < r + (g.heap hdd).off ∧ r + (g.heap hdd).off ≤ v.row ∧ u.row ≠ v.row := by
  have hl : level ≠ g.num_levels := by omega
  intro ce hce ct hct hbe hbt
  have hlce := (direct_calls_level g hdd level r c false ce hce).1
  have hlct := (direct_calls_level g hdd level r c false ct hct).1
  rw [RowsWithin] at hw
  simp only [hz, false_or, hsm] at hw
  obtain ⟨_, _, hwe, hwt⟩ := hw
  refine ⟨?_, ?_, ?_⟩
  · intro s
    exact power_rec_eq_updates g hm false d fuel _ _ _ _ s (by rw [hlce]; omega) hfuel
  · intro s
    exact power_rec_eq_updates g hm false d fuel _ _ _ _ s (by rw [hlct]; omega) hfuel
  · intro u hu v hv
    have hue : u.row < r + (g.heap hdd).off := by
      rcases direct_calls_untransposed g hdd level r c hz hsm hl ce hce with
        ⟨_, he, hrow, hnode⟩ | ⟨hb, _⟩
      · rw [hrow] at hu
        rcases hnode with hnode | hnode
        · rw [hnode] at hu
          have := rows_within_bounds g d _ _ _ _ (hwe he).1 u hu
          omega
        · rw [hnode] at hu
          have := rows_within_bounds g d _ _ _ _ (hwe he).2 u hu
          omega
      · rw [hbe] at hb
        cases hb
    have hvt : r + (g.heap hdd).off ≤ v.row := by
      rcases direct_calls_untransposed g hdd level r c hz hsm hl ct hct with
        ⟨hb, _⟩ | ⟨_, ht, hrow, hnode⟩
      · rw [hbt] at hb
        cases hb
      · rw [hrow] at hv
        rcases hnode with hnode | hnode
        · rw [hnode] at hv
          have := rows_within_bounds g d _ _ _ _ (hwt ht).1 v hv
          omega
        · rw [hnode] at hv
          have := rows_within_bounds g d _ _ _ _ (hwt ht).2 v hv
          omega
    exact ⟨hue, hvt, by omega⟩

/-- Witness of the amended C18 at the root of the diagram of the 3-state chain. -/
theorem sibling_rows_disjoint_witness :
    RowsWithin exGlobals 2 1 3 ∧
      ∀ ce ∈ direct_calls exGlobals 1 0 0 0 false,
        ∀ ct ∈ direct_calls exGlobals 1 0 0 0 false,
          ce.through_then = false → ct.through_then = true →
          ∀ u ∈ hybrid_updates exGlobals false 1 ce.hdd ce.row_offset ce.col_offset,
          ∀ v ∈ hybrid_updates exGlobals false 1 ct.hdd ct.row_offset ct.col_offset,
            u.row ≠ v.row := by
  refine ⟨exGlobals_rows, ?_⟩
  intro ce hce ct hct hbe hbt u hu v hv
  exact ((sibling_rows_disjoint exGlobals 1 2 1 0 0 0 3
    (blocksMatch_of_block_free exGlobals
      (by intro p; show (exHeap p).sm = none; unfold exHeap; split <;> rfl))
    (by decide) rfl rfl (by decide) exGlobals_rows ce hce ct hct hbe hbt).2.2 u hu v hv).2.2

/-! ## Negative values in the relative test -/

/-- C19: in relative mode with `term_crit_param >= 0`, buffers whose `soln2[i]` is negative
for every `i` in `[0, n)` are reported converged however far `soln[i]` is from `soln2[i]`;
and on buffers without a zero `soln2[i]`, the verdict depends on the indices with a positive
`soln2[i]` only: an index with a negative `soln2[i]` never stands in the way. -/
theorem check_relative_negative (a : PowerArgs) (s : Buffers) (done : Bool)
    (h : a.term_crit = TERM_CRIT_RELATIVE) (htol : 0 ≤ a.term_crit_param) :
    ((∀ i : Int, 0 ≤ i → i < a.n → s.soln2 i < 0) → check_convergence a s done = true) ∧
    ((∀ i : Int, 0 ≤ i → i < a.n → s.soln2 i ≠ 0) →
      (check_convergence a s done = true ↔
        ∀ i : Int, 0 ≤ i → i < a.n → 0 < s.soln2 i →
          |s.soln2 i - s.soln i| / s.soln2 i ≤ a.term_crit_param)) := by
  have hne : ¬ a.term_crit = TERM_CRIT_ABSOLUTE := by
    rw [h]
    decide
  have hneg : ∀ i : Int, s.soln2 i < 0 →
      |s.soln2 i - s.soln i| / s.soln2 i ≤ a.term_crit_param := by
    intro i hi
    have hq : |s.soln2 i - s.soln i| / s.soln2 i ≤ 0 :=
      div_nonpos_of_nonneg_of_nonpos (abs_nonneg _) (le_of_lt hi)
    exact le_trans hq htol
  have hiff : (∀ i : Int, 0 ≤ i → i < a.n → s.soln2 i ≠ 0) →
      (check_convergence a s done = true ↔
        ∀ i : Int, 0 ≤ i → i < a.n →
          |s.soln2 i - s.soln i| / s.soln2 i ≤ a.term_crit_param) := by
    intro hnz
    unfold check_convergence
    rw [if_neg hne, if_pos h,
      check_relative_iff _ _ _ _ fun i h0 hn => hnz i h0 (by omega)]
    constructor
    · intro hall i h0 hn
      exact hall i h0 (by omega)
    · intro hall i h0 hn
      exact hall i h0 (by omega)
  refine ⟨?_, ?_⟩
  · intro hall
    exact (hiff fun i h0 hn => ne_of_lt (hall i h0 hn)).mpr
      fun i h0 hn => hneg i (hall i h0 hn)
  · intro hnz
    rw [hiff hnz]
    constructor
    · intro hall i h0 hn _
      exact hall i h0 hn
    · intro hall i h0 hn
      rcases lt_trichotomy (s.soln2 i) 0 with hlt | heq | hgt
      · exact hneg i hlt
      · exact absurd heq (hnz i h0 hn)
      · exact hall i h0 hn hgt

/-- Witness of C19: `soln = (1, 2, 4)` against `soln2 = -3` everywhere, tolerance `1e-8`. -/
theorem check_relative_negative_witness :
    check_convergence (exArgsRelative exTolerance 5)
      { soln := exBufs.soln, soln2 := fun _ => -3 } false = true :=
  (check_relative_negative (exArgsRelative exTolerance 5)
    { soln := exBufs.soln, soln2 := fun _ => -3 } false rfl
    (by show (0 : ℚ) ≤ exTolerance; norm_num [exTolerance])).1
    (by intro i _ _; show (-3 : ℚ) < 0; norm_num)

/-! ## A fixed point as initial vector -/

theorem while_loop_iters_mono (a : PowerArgs) :
    ∀ (r : Nat) (st st' : LoopState), (a.max_iters - st.iters).toNat = r →
      while_loop a st = some st' → st.iters ≤ st'.iters := by
  intro r
  induction r with
  | zero =>
    intro st st' hr hloop
    rw [while_loop_stop a st (by omega)] at hloop
    cases hloop
    exact le_refl _
  | succ r ih =>
    intro st st' hr hloop
    by_cases hg : st.done = false ∧ st.iters < a.max_iters
    · cases hm0 : matrix_multiply a st.bufs with
      | none =>
        rw [while_loop_step_none a st hg hm0] at hloop
        cases hloop
      | some m0 =>
        rw [while_loop_step a st m0 hg hm0] at hloop
        have := ih _ st' (by show (a.max_iters - (st.iters + 1)).toNat = r; omega) hloop
        have hle : st.iters + 1 ≤ st'.iters := this
        omega
    · rw [while_loop_stop a st hg] at hloop
      cases hloop
      exact le_refl _

theorem while_loop_at_least_one (a : PowerArgs) (hmax : 1 ≤ a.max_iters) (s : Buffers)
    (st : LoopState)
    (hloop : while_loop a { iters := 0, done := false, bufs := s } = some st) :
    1 ≤ st.iters ∧ ∃ m, matrix_multiply a s = some m := by
  have hg : ({ iters := 0, done := false, bufs := s } : LoopState).done = false ∧
      ({ iters := 0, done := false, bufs := s } : LoopState).iters < a.max_iters :=
    ⟨rfl, by show (0 : Int) < a.max_iters; omega⟩
  cases hm0 : matrix_multiply a s with
  | none =>
    rw [while_loop_step_none a _ hg hm0] at hloop
    cases hloop
  | some m0 =>
    rw [while_loop_step a _ m0 hg hm0] at hloop
    have := while_loop_iters_mono a _ _ st rfl hloop
    have hle : (0 : Int) + 1 ≤ st.iters := this
    exact ⟨by omega, m0, rfl⟩

/-- C20: on a solve that is well set up, in absolute mode with `term_crit_param >= 0` and
`max_iters >= 1`, when `b[i] + (A init)[i] = init[i]` for every state index `i`, the loop
ends after one iteration with `done` true and the function returns the vector the multiply
left in `soln2`, equal to `init` on the state indices, with no error message; and whatever
the initial vector, a loop that returns has run at least one multiply. -/
theorem fixed_point_one_iteration (a : PowerArgs) (init scratch : Vec) (S : Finset Int)
    (hw : WellSetUp a)
    (hS : ∀ u ∈ hybrid_updates a.g a.transpose a.g.num_levels.toNat a.hdd 0 0, u.col ∈ S)
    (habs : a.term_crit = TERM_CRIT_ABSOLUTE) (htol : 0 ≤ a.term_crit_param)
    (hmax : 1 ≤ a.max_iters)
    (hfix : ∀ i : Int, 0 ≤ i → i < a.n →
      rhs_value a i + ∑ c in S,
        matrix_of (hybrid_updates a.g a.transpose a.g.num_levels.toNat a.hdd 0 0) i c *
          init c = init i) :
    (∃ v, Java_hybrid_PrismHybrid_PH_1Power a init scratch =
          some { result := some v, message := none } ∧
        (∀ i : Int, 0 ≤ i → i < a.n → v i = init i) ∧
        matrix_multiply a { soln := init, soln2 := scratch } =
          some { soln := init, soln2 := v } ∧
        while_loop a { iters := 0, done := false, bufs := { soln := init, soln2 := scratch } } =
          some { iters := 1, done := true, bufs := { soln := v, soln2 := init } }) ∧
      ∀ (init2 scratch2 : Vec) (st : LoopState),
        while_loop a
            { iters := 0, done := false, bufs := { soln := init2, soln2 := scratch2 } } =
          some st →
        1 ≤ st.iters ∧ ∃ m, matrix_multiply a { soln := init2, soln2 := scratch2 } = some m := by
  refine ⟨?_, fun init2 scratch2 st hloop => while_loop_at_least_one a hmax _ st hloop⟩
  have hm := matrix_multiply_eq a hw { soln := init, soln2 := scratch }
  generalize hmdef : apply_updates
    (hybrid_updates a.g a.transpose a.g.num_levels.toNat a.hdd 0 0)
    (initialise_vector a { soln := init, soln2 := scratch }) = m at hm
  have hsoln : m.soln = init := by
    rw [← hmdef, apply_updates_soln, initialise_vector_soln]
  have hsoln2 : ∀ i : Int, 0 ≤ i → i < a.n → m.soln2 i = init i := by
    intro i h0 hn
    rw [← hmdef, apply_updates_soln2, initialise_vector_soln2 a _ i h0 hn,
      initialise_vector_soln, row_sum_eq_matrix_sum _ _ _ S hS]
    exact hfix i h0 hn
  have hc : check_convergence a m false = true := by
    apply (check_convergence_absolute_iff a m false habs).mpr
    intro i h0 hn
    rw [hsoln2 i h0 hn, hsoln, sub_self, abs_zero]
    exact htol
  have hloop := while_loop_converges a 0
    { iters := 0, done := false, bufs := { soln := init, soln2 := scratch } } m rfl
    (by show (0 : Int) + ((0 : Nat) : Int) < a.max_iters; push_cast; omega) hm hc
    (fun j hj => absurd hj (Nat.not_lt_zero j))
  have hswap : swap m = { soln := m.soln2, soln2 := init } := by
    rw [← hsoln]
    rfl
  refine ⟨m.soln2, ?_, hsoln2, ?_, ?_⟩
  · unfold Java_hybrid_PrismHybrid_PH_1Power
    rw [hloop]
    rfl
  · rw [hm, ← hsoln]
  · rw [hloop, hswap]
    rfl

/-- Witness of C20 on the 3-state chain: the constant vector 1 is a fixed point of its
row-stochastic matrix. -/
theorem fixed_point_one_iteration_witness :
    ∃ v, Java_hybrid_PrismHybrid_PH_1Power (exArgs exTolerance 5) (fun _ => 1) (fun _ => 0) =
        some { result := some v, message := none } ∧
      ∀ i : Int, 0 ≤ i → i < (exArgs exTolerance 5).n → v i = (fun _ => (1 : ℚ)) i := by
  obtain ⟨v, h1, h2, _⟩ := (fixed_point_one_iteration (exArgs exTolerance 5) (fun _ => 1)
    (fun _ => 0) {0, 1, 2} (exArgs_wellSetUp exTolerance 5)
    (by rw [exArgs_updates]; simp) rfl
    (by show (0 : ℚ) ≤ exTolerance; norm_num [exTolerance])
    (by show (1 : Int) ≤ 5; decide)
    (by
      intro i h0 hn
      have hn3 : i < 3 := hn
      rw [exArgs_updates]
      have hcases : i = 0 ∨ i = 1 ∨ i = 2 := by omega
      rcases hcases with rfl | rfl | rfl <;>
        (simp [rhs_value, exArgs, matrix_of, List.filter_cons]; try norm_num))).1
  exact ⟨v, h1, h2⟩

/-! ## A cap that allows no iteration -/

theorem zero_divisor_blocks_convergence (scratch : Vec) :
    Java_hybrid_PrismHybrid_PH_1Power (exZeroMatrixArgs 1) exInit scratch =
      some { result := none, message := some (error_message 1) } := by
  have hm : matrix_multiply (exZeroMatrixArgs 1) { soln := exInit, soln2 := scratch } =
      some (initialise_vector (exZeroMatrixArgs 1) { soln := exInit, soln2 := scratch }) :=
    power_rec_zero (exZeroMatrixArgs 1).g 0 0 0 0 false _
  generalize hmdef :
    initialise_vector (exZeroMatrixArgs 1) { soln := exInit, soln2 := scratch } = m at hm
  have h2 : m.soln2 0 = 0 := by
    rw [← hmdef, initialise_vector_soln2 _ _ 0 (by decide) (by show (0 : Int) < 1; decide)]
    rfl
  have h1 : m.soln 0 ≠ 0 := by
    rw [← hmdef, initialise_vector_soln]
    show exInit 0 ≠ 0
    simp [exInit]
  have hc : check_convergence (exZeroMatrixArgs 1) m false = false := by
    have hne : ¬ (exZeroMatrixArgs 1).term_crit = TERM_CRIT_ABSOLUTE := by decide
    unfold check_convergence
    have hrel : (exZeroMatrixArgs 1).term_crit = TERM_CRIT_RELATIVE := rfl
    rw [if_neg hne, if_pos hrel]
    show check_relative _ m 1 0 = false
    rw [check_relative, (relative_test_zero _ m 0 h2).mpr h1, if_pos rfl]
  have hloop : while_loop (exZeroMatrixArgs 1)
      { iters := 0, done := false, bufs := { soln := exInit, soln2 := scratch } } =
      some { iters := 1, done := false, bufs := swap m } := by
    rw [while_loop_step _ _ m ⟨rfl, by show (0 : Int) < 1; decide⟩ hm, hc]
    exact while_loop_stop _ _ (by
      intro h
      have hlt : (0 : Int) + 1 < 1 := h.2
      omega)
  unfold Java_hybrid_PrismHybrid_PH_1Power
  rw [hloop]
  rfl

end PrismHybrid

namespace PrismMTBDD

theorem c_string_vsnprintf (buf : Nat → Char) (size : Nat) (text : List Char)
    (hsize : 1 ≤ size) (hnul : ∀ ch ∈ text, ch ≠ NUL) :
    ∀ (k i len : Nat), i + k = min text.length (size - 1) → k < len →
      c_string (vsnprintf buf size text) len i =
        (text.take (min text.length (size - 1))).drop i := by
  have hs : ¬ size = 0 := by omega
  intro k
  induction k with
  | zero =>
    intro i len hi hlen
    obtain ⟨len, rfl⟩ : ∃ l, len = l + 1 := ⟨len - 1, by omega⟩
    have hcell : vsnprintf buf size text i = NUL := by
      simp only [vsnprintf, hs, if_false]
      have hnot : ¬ i < min text.length (size - 1) := by omega
      have heq : i = min text.length (size - 1) := by omega
      rw [if_neg hnot, if_pos heq]
    rw [c_string, if_pos hcell, List.drop_eq_nil_of_le]
    rw [List.length_take]
    omega
  | succ k ih =>
    intro i len hi hlen
    obtain ⟨len, rfl⟩ : ∃ l, len = l + 1 := ⟨len - 1, by omega⟩
    have hlt : i < min text.length (size - 1) := by omega
    have hilen : i < text.length := by omega
    have hcell : vsnprintf buf size text i = text[i] := by
      simp only [vsnprintf, hs, if_false]
      rw [if_pos hlt]
      simp [List.getD_eq_getElem?_getD, hilen]
    have hne : ¬ vsnprintf buf size text i = NUL := by
      rw [hcell]
      exact hnul _ (List.getElem_mem _)
    rw [c_string, if_neg hne, ih (i + 1) len (by omega) (by omega), hcell]
    have hitake : i < (text.take (min text.length (size - 1))).length := by
      rw [List.length_take]
      omega
    rw [List.drop_eq_getElem_cons hitake, List.getElem_take]

theorem take_min_length (text : List Char) (k : Nat) :
    text.take (min text.length k) = text.take k := by
  rcases Nat.le_total text.length k with h | h
  · rw [Nat.min_eq_left h, List.take_of_length_le h, List.take_length]
  · rw [Nat.min_eq_right h]

/-- C14: after `PM_SetErrorMessage` is called with a first message and then with a second
one, whose text holds no `NUL`, the C string `PM_GetErrorMessage` points to is the text of
the second message cut to its first `MAX_LOG_STRING_LEN - 1` characters, whatever the first
message and the earlier content were; with `MAX_LOG_STRING_LEN = 1024` that is at most
1023 characters.  The array of `MAX_ERR_STRING_LEN` characters is taken to be no shorter
than `MAX_LOG_STRING_LEN`. -/
theorem error_message_overwritten (MAX_LOG_STRING_LEN MAX_ERR_STRING_LEN : Nat)
    (error_message : Nat → Char) (m1 m2 : List Char)
    (hlog : 1 ≤ MAX_LOG_STRING_LEN) (herr : MAX_LOG_STRING_LEN ≤ MAX_ERR_STRING_LEN)
    (hnul : ∀ ch ∈ m2, ch ≠ NUL) :
    c_string
        (PM_GetErrorMessage
          (PM_SetErrorMessage MAX_LOG_STRING_LEN
            (PM_SetErrorMessage MAX_LOG_STRING_LEN error_message m1) m2))
        MAX_ERR_STRING_LEN 0 = m2.take (MAX_LOG_STRING_LEN - 1) ∧
      (MAX_LOG_STRING_LEN = 1024 →
        (c_string
          (PM_GetErrorMessage
            (PM_SetErrorMessage MAX_LOG_STRING_LEN
              (PM_SetErrorMessage MAX_LOG_STRING_LEN error_message m1) m2))
          MAX_ERR_STRING_LEN 0).length ≤ 1023) := by
  have hget : c_string
      (PM_GetErrorMessage
        (PM_SetErrorMessage MAX_LOG_STRING_LEN
          (PM_SetErrorMessage MAX_LOG_STRING_LEN error_message m1) m2))
      MAX_ERR_STRING_LEN 0 = m2.take (MAX_LOG_STRING_LEN - 1) := by
    unfold PM_GetErrorMessage PM_SetErrorMessage
    rw [c_string_vsnprintf _ MAX_LOG_STRING_LEN m2 hlog hnul
      (min m2.length (MAX_LOG_STRING_LEN - 1)) 0 MAX_ERR_STRING_LEN (by omega) (by omega),
      List.drop_zero, take_min_length]
  refine ⟨hget, ?_⟩
  intro h1024
  rw [hget, List.length_take, h1024]
  omega

/-- Witness of C14 with both constants 1024, the array holding `abcdef` before. -/
theorem error_message_overwritten_witness :
    c_string
        (PM_GetErrorMessage
          (PM_SetErrorMessage 1024 (PM_SetErrorMessage 1024 exBuffer ['f', 'i', 'r', 's', 't'])
            ['o', 'k']))
        1024 0 = ['o', 'k'].take (1024 - 1) :=
  (error_message_overwritten 1024 1024 exBuffer ['f', 'i', 'r', 's', 't'] ['o', 'k']
    (by decide) (by decide) (by decide)).1

end PrismMTBDD
